import Mathlib

/-!
# Verification of the go-hll hybrid HyperLogLog buffer engine

A shallow embedding of the `go-hll` repository (files `hll.go`, `sparse.go`,
`dense.go`) over byte buffers modelled as `List Nat` with every element
below 256.  Machine integers are modelled as `Nat` with explicit masks;
the floating-point dense estimator is kept abstract as a parameter where a
claim only concerns control flow around it.
-/

namespace GoHll


/-- A byte buffer.  Go's `[]byte` is modelled as a list of naturals; the
well-formedness predicate `Wf` states every entry is a byte value. -/
abbrev Buf := List Nat

/-- Every entry of the buffer is a byte value (below 256). -/
def Wf (b : Buf) : Prop := ∀ x ∈ b, x < 256

instance (b : Buf) : Decidable (Wf b) := by
  unfold Wf; infer_instance

/-! ## Buffer primitives -/

/-- Read the byte at index `i` (0 when out of bounds; all modelled reads are
in bounds). -/
def byteAt (b : Buf) (i : Nat) : Nat := b.getD i 0

/-- Overwrite the bytes of `b` starting at offset `off` with `bs`,
modelling an in-place Go slice write. -/
def wr (b : Buf) (off : Nat) (bs : Buf) : Buf :=
  b.take off ++ bs ++ b.drop (off + bs.length)

/-- Read `k` consecutive bytes starting at offset `off`. -/
def rd (b : Buf) (off k : Nat) : Buf := (b.drop off).take k

/-- The all-zero buffer of a given length. -/
def zeros (n : Nat) : Buf := List.replicate n 0

/-! ## Endianness codecs (model of Go's `encoding/binary`) -/

/-- Little-endian decoding of a byte list (first byte least significant);
models how `binary.LittleEndian.Uint64` reads an 8-byte region. -/
def leBytes : Buf → Nat
  | [] => 0
  | b :: t => b + 256 * leBytes t

/-- The 8-byte little-endian encoding of `v`, as written by
`binary.LittleEndian.PutUint64` (`byte(v)` truncation is `&&& 255`). -/
def leU64bytes (v : Nat) : Buf :=
  [v &&& 255, (v >>> 8) &&& 255, (v >>> 16) &&& 255, (v >>> 24) &&& 255,
   (v >>> 32) &&& 255, (v >>> 40) &&& 255, (v >>> 48) &&& 255, (v >>> 56) &&& 255]

/-- Big-endian 32-bit decode of the first four bytes, as read by
`binary.BigEndian.Uint32` (ors of shifted bytes, least significant last). -/
def beU32 (b : Buf) : Nat :=
  byteAt b 3 ||| byteAt b 2 <<< 8 ||| byteAt b 1 <<< 16 ||| byteAt b 0 <<< 24

/-- The 4-byte big-endian encoding of `v`, as written by
`binary.BigEndian.PutUint32`. -/
def beU32bytes (v : Nat) : Buf :=
  [(v >>> 24) &&& 255, (v >>> 16) &&& 255, (v >>> 8) &&& 255, v &&& 255]

/-- Big-endian 64-bit decode of the first eight bytes
(`binary.BigEndian.Uint64`). -/
def beU64 (b : Buf) : Nat :=
  byteAt b 7 ||| byteAt b 6 <<< 8 ||| byteAt b 5 <<< 16 ||| byteAt b 4 <<< 24 |||
  byteAt b 3 <<< 32 ||| byteAt b 2 <<< 40 ||| byteAt b 1 <<< 48 ||| byteAt b 0 <<< 56

/-- The 8-byte big-endian encoding of `v` (`binary.BigEndian.PutUint64`). -/
def beU64bytes (v : Nat) : Buf :=
  [(v >>> 56) &&& 255, (v >>> 48) &&& 255, (v >>> 40) &&& 255, (v >>> 32) &&& 255,
   (v >>> 24) &&& 255, (v >>> 16) &&& 255, (v >>> 8) &&& 255, v &&& 255]

/-! ## Dense engine (`dense.go`)

Packed 6-bit registers, four per three bytes:
byte 0 = `a5..a0 d5 d4`, byte 1 = `b5..b0 d3 d2`, byte 2 = `c5..c0 d1 d0`. -/

/-- `Dense.m`: the register count, `(len/3) << 2`. -/
def denseM (h : Buf) : Nat := (h.length / 3) <<< 2

/-- Leading-zero count of a 64-bit word (`bits.Clz` from dgryski/go-bits,
an external collaborator; modelled by its mathematical meaning). -/
def clz64 (x : Nat) : Nat := if x = 0 then 64 else 63 - Nat.log2 x

/-- The rank used by `Dense.Add`: `min(clz(hash)+1, 63)`. -/
def rho64 (hash : Nat) : Nat := min (clz64 hash + 1) 63

/-- `Dense.get`: read register `idx`. -/
def denseGet (h : Buf) (idx : Nat) : Nat :=
  let bp := (idx >>> 2) * 3
  let s := idx &&& 3
  if s ≠ 3 then
    byteAt h (bp + s) >>> 2
  else
    ((byteAt h bp &&& 3) <<< 4) ^^^ ((byteAt h (bp + 1) &&& 3) <<< 2) ^^^
      (byteAt h (bp + 2) &&& 3)

/-- `Dense.set`: write register `idx` (only the low six bits of `v` are
meaningful). -/
def denseSet (h : Buf) (idx v : Nat) : Buf :=
  let bp := (idx >>> 2) * 3
  let s := idx &&& 3
  if s ≠ 3 then
    h.set (bp + s) ((byteAt h (bp + s) &&& 3) ^^^ (v <<< 2))
  else
    ((h.set bp ((byteAt h bp &&& 252) ^^^ (v >>> 4))).set (bp + 1)
        ((byteAt h (bp + 1) &&& 252) ^^^ ((v >>> 2) &&& 3))).set (bp + 2)
      ((byteAt h (bp + 2) &&& 252) ^^^ (v &&& 3))

/-- `Dense.Add`: record a hash; returns the updated buffer and whether a
register grew (`true` means the cardinality estimate changed). -/
def denseAdd (h : Buf) (hash : Nat) : Buf × Bool :=
  let mask := denseM h - 1
  let idx := hash &&& mask
  let rho := rho64 hash
  let bp := (idx >>> 2) * 3
  let s := idx &&& 3
  if s ≠ 3 then
    let b := byteAt h (bp + s)
    let v := b >>> 2
    if v < rho then (h.set (bp + s) ((b &&& 3) ||| (rho <<< 2)), true)
    else (h, false)
  else
    let x0 := byteAt h bp
    let x1 := byteAt h (bp + 1)
    let x2 := byteAt h (bp + 2)
    let v := ((x0 &&& 3) <<< 4) ^^^ ((x1 &&& 3) <<< 2) ^^^ (x2 &&& 3)
    if v ≥ rho then (h, false)
    else
      (((h.set bp ((x0 &&& 252) ^^^ (rho >>> 4))).set (bp + 1)
          ((x1 &&& 252) ^^^ ((rho >>> 2) &&& 3))).set (bp + 2)
        ((x2 &&& 252) ^^^ (rho &&& 3)), true)

/-- One three-byte group of `Dense.Merge`: elementwise maximum of the four
register pairs, `a`,`b`,`c` compared in place in the high six bits, `d`
reassembled and rewritten as a whole. -/
def mg3 (x0 x1 x2 y0 y1 y2 : Nat) : Buf :=
  let xH0 := x0 &&& 252
  let xH1 := x1 &&& 252
  let xH2 := x2 &&& 252
  let xL0 := x0 &&& 3
  let xL1 := x1 &&& 3
  let xL2 := x2 &&& 3
  let yH0 := y0 &&& 252
  let yH1 := y1 &&& 252
  let yH2 := y2 &&& 252
  let yL0 := y0 &&& 3
  let yL1 := y1 &&& 3
  let yL2 := y2 &&& 3
  let r0 := if xH0 > yH0 then xH0 else yH0
  let r1 := if xH1 > yH1 then xH1 else yH1
  let r2 := if xH2 > yH2 then xH2 else yH2
  let xx := (xL0 <<< 4) ^^^ (xL1 <<< 2) ^^^ xL2
  let yy := (yL0 <<< 4) ^^^ (yL1 <<< 2) ^^^ yL2
  if xx > yy then [r0 ^^^ xL0, r1 ^^^ xL1, r2 ^^^ xL2]
  else [r0 ^^^ yL0, r1 ^^^ yL1, r2 ^^^ yL2]

/-- The register-merging loop of `Dense.Merge`, three bytes at a time. -/
def denseMergeLoop : Buf → Buf → Buf
  | x0 :: x1 :: x2 :: hs, y0 :: y1 :: y2 :: gs =>
      mg3 x0 x1 x2 y0 y1 y2 ++ denseMergeLoop hs gs
  | hs, _ => hs

/-- `Dense.Merge`: size check then the merging loop; the second component
records whether the size-mismatch error was returned. -/
def denseMerge (h g : Buf) : Buf × Bool :=
  if h.length ≠ g.length then (h, true)
  else (denseMergeLoop h g, false)

/-- The empty-register count computed by the loop in
`Dense.EstimateCardinality`: for each three-byte group it tests
`v0 == 0`, `v1 == 0`, `v2 == 0` and then `v2 == 0` again (the fourth
register value `v3` is never tested).  Transcribed as in the source. -/
def countV : Buf → Nat
  | x0 :: x1 :: x2 :: hs =>
      (if x0 >>> 2 = 0 then 1 else 0) + (if x1 >>> 2 = 0 then 1 else 0) +
      (if x2 >>> 2 = 0 then 1 else 0) + (if x2 >>> 2 = 0 then 1 else 0) +
      countV hs
  | _ => 0

/-- Modelled from the spec: `V` = count of registers equal to zero, each of
the four registers of every three-byte group counted exactly once (the
behavior the spec prescribes for the linear-counting fallback). -/
def countVSpec (h : Buf) : Nat :=
  ((List.range (denseM h)).filter (fun i => denseGet h i = 0)).length

/-! ## Sparse engine (`sparse.go`)

The buffer holds a 4-byte big-endian header (dirty bit 31, count in the
low 30 bits), 4 unused bytes, then the stored hashes, 8 bytes each,
little endian, starting at byte 8 (slot 0 is never used for a hash). -/

inductive AddResult where
  | ok
  | full
deriving DecidableEq

/-- `sparse.size`: the element count field, `BigEndian.Uint32 & ^(1<<31)`. -/
def sSize (s : Buf) : Nat := beU32 s &&& (2 ^ 31 - 1)

/-- `sparse.setSize`: write the 32-bit big-endian count field. -/
def sSetSize (s : Buf) (sz : Nat) : Buf := wr s 0 (beU32bytes sz)

/-- `sparse.dirty`: bit 7 of byte 0. -/
def sDirty (s : Buf) : Bool := decide (byteAt s 0 &&& 128 ≠ 0)

/-- Split a region into `n` consecutive 8-byte keys. -/
def chunksN : Nat → Buf → List Buf
  | 0, _ => []
  | n + 1, l => l.take 8 :: chunksN n (l.drop 8)

/-- The stored keys (8-byte little-endian encodings), in storage order. -/
def keysOf (s : Buf) : List Buf := chunksN (sSize s) (s.drop 8)

/-- The stored hash values, in storage order. -/
def storedHashes (s : Buf) : List Nat := (keysOf s).map leBytes

/-- `sortable.Less`: byte-wise comparison of two keys, first byte most
significant (the hashes are stored little endian, so this is not the
numeric 64-bit order). -/
def keyLess : Buf → Buf → Bool
  | a :: as, b :: bs =>
      if a < b then true else if b < a then false else keyLess as bs
  | _, _ => false

/-- Insert a key into a sorted key list. -/
def insort (a : Buf) : List Buf → List Buf
  | [] => [a]
  | b :: t => if keyLess b a then b :: insort a t else a :: b :: t

/-- Insertion sort on keys.  Models the `sort.Sort` call in `sparse.sort`
(the standard library sorts by `sortable.Less`; since equal keys are
identical byte sequences, the sorted permutation is unique, so any
correct sort computes this exact list). -/
def insSort (l : List Buf) : List Buf := l.foldr insort []

/-- The in-place consecutive-duplicate removal of `sparse.sort`.
Duplicate keys are identical byte sequences, so keeping the first or the
last of a run yields the same list. -/
def dedup1 : List Buf → List Buf
  | [] => []
  | [a] => [a]
  | a :: b :: t => if a = b then dedup1 (b :: t) else a :: dedup1 (b :: t)

/-- `sparse.sort`: sort the stored keys, remove duplicates, zero the freed
tail bytes, store the new count (clearing the dirty bit). -/
def sparseSort (s : Buf) : Buf :=
  let n := sSize s
  let ded := dedup1 (insSort (chunksN n (s.drop 8)))
  let payload := ded.flatten ++ zeros (8 * n - 8 * ded.length)
  sSetSize (wr s 8 payload) ded.length

/-- `sparse.Add`. -/
def sparseAdd (s : Buf) (hash : Nat) : Buf × AddResult :=
  let sz := sSize s + 1
  if sz < s.length >>> 3 then
    (sSetSize (wr s (sz <<< 3) (leU64bytes hash)) (sz ||| 2 ^ 31), AddResult.ok)
  else if sDirty s = false then (s, AddResult.full)
  else
    let s1 := sparseSort s
    let sz1 := sSize s1
    if sz1 + 100 < s.length >>> 3 then
      (sSetSize (wr s1 ((sz1 + 1) <<< 3) (leU64bytes hash))
        ((sz1 + 1) ||| 2 ^ 31), AddResult.ok)
    else (s1, AddResult.full)

/-- `sparse.EstimateCardinality`: sort when dirty, then return the count. -/
def sparseEstimate (s : Buf) : Nat × Buf :=
  let s1 := if sDirty s then sparseSort s else s
  (sSize s1, s1)

/-! ## Hybrid facade (`hll.go`)

Header byte 0: bit 7 dirty, bit 6 mode (1 dense, 0 sparse).  The dense
cardinality estimator (`Dense.EstimateCardinality`) computes with IEEE-754
floats, so the facade is parameterised by it (`dEst`); every claim below
only concerns the control flow around that call. -/

/-- `mergeIntoDense`: replay the stored sparse hashes into a dense buffer. -/
def mergeIntoDense (d : Buf) (s : Buf) : Buf :=
  (storedHashes s).foldl (fun acc hash => (denseAdd acc hash).1) d

/-- `toDense`: in-place sparse-to-dense promotion.  A scratch dense buffer
is filled from the stored hashes, copied over bytes `8..`, and the header
byte becomes dirty+dense (`128+64`); header bytes 1-7 keep their old
contents. -/
def toDense (s : Buf) : Buf :=
  let tmp := mergeIntoDense (zeros (s.length - 8)) s
  (wr s 8 tmp).set 0 (128 + 64)

/-- The replay loop of `mergeIntoSparse`, stopping at the first `full`. -/
def mergeHashes : Buf → List Nat → Buf × AddResult
  | t, [] => (t, AddResult.ok)
  | t, x :: rest =>
      match sparseAdd t x with
      | (t', AddResult.ok) => mergeHashes t' rest
      | (t', AddResult.full) => (t', AddResult.full)

/-- `mergeIntoSparse`: replay the stored hashes of `s` into `t`. -/
def mergeIntoSparse (t s : Buf) : Buf × AddResult :=
  mergeHashes t (storedHashes s)

/-- `HLL.Add`. -/
def hllAdd (h : Buf) (hash : Nat) : Buf :=
  if byteAt h 0 &&& 64 ≠ 0 then
    let r := denseAdd (h.drop 8) hash
    let h' := rd h 0 8 ++ r.1
    if r.2 then h'.set 0 (byteAt h' 0 ||| 128) else h'
  else
    match sparseAdd h hash with
    | (s', AddResult.ok) => s'
    | (s', AddResult.full) =>
        let t := toDense s'
        rd t 0 8 ++ (denseAdd (t.drop 8) hash).1

/-- `HLL.Merge`; the boolean is `true` when the size-mismatch error is
returned.  Only `h` is ever written; `g` is read-only in every path of the
source, so the embedding returns the updated `h`. -/
def hllMerge (h g : Buf) : Buf × Bool :=
  if h.length ≠ g.length then (h, true)
  else if byteAt h 0 &&& 64 ≠ 0 then
    if byteAt g 0 &&& 64 ≠ 0 then
      let h' := rd h 0 8 ++ (denseMerge (h.drop 8) (g.drop 8)).1
      (h'.set 0 (byteAt h' 0 ||| 128), false)
    else
      let h' := rd h 0 8 ++ mergeIntoDense (h.drop 8) g
      (h'.set 0 (byteAt h' 0 ||| 128), false)
  else if byteAt g 0 &&& 64 ≠ 0 then
    let h1 := toDense h
    (rd h1 0 8 ++ (denseMerge (h1.drop 8) (g.drop 8)).1, false)
  else
    match mergeIntoSparse h g with
    | (h1, AddResult.ok) => (h1, false)
    | (h1, AddResult.full) =>
        let h2 := toDense h1
        let h3 := rd h2 0 8 ++ mergeIntoDense (h2.drop 8) g
        (h3.set 0 (128 + 64), false)

/-- `HLL.EstimateCardinality`, parameterised by the (floating-point) dense
estimator.  Returns the estimate, the updated buffer, and whether the
cached header word was returned (the not-dirty dense fast path). -/
def hllEstimateC (dEst : Buf → Nat) (h : Buf) : Nat × Buf × Bool :=
  if byteAt h 0 &&& 64 ≠ 0 then
    if byteAt h 0 &&& 128 = 0 then
      (beU64 h &&& (2 ^ 62 - 1), h, true)
    else
      let card := dEst (h.drop 8)
      if card &&& (2 ^ 63 + 2 ^ 62) ≠ 0 then (card, h, false)
      else (card, wr h 0 (beU64bytes (card ||| 2 ^ 62)), false)
  else
    let r := sparseEstimate h
    (r.1, r.2, false)

/-- `HLL.Reset`: zero the whole buffer. -/
def hllReset (h : Buf) : Buf := zeros h.length

/-- `HLL.IsSparse`: the mode bit is clear. -/
def hllIsSparse (h : Buf) : Bool := decide (byteAt h 0 &&& 64 = 0)

/-- `SizeByP` (`DenseSizeByP` plus the 8 header bytes). -/
def hllSizeByP (p : Nat) : Nat := ((1 <<< p) * 3) >>> 2 + 8

/-- A buffer length is valid when it comes from a precision in `[4, 25]`. -/
def validSize (L : Nat) : Prop := ∃ p, 4 ≤ p ∧ p ≤ 25 ∧ L = hllSizeByP p

/-- Proof device: the invariant the facade `add` maintains on sparse
buffers — fixed length, byte values, sparse mode bit, count in bounds,
stored hashes = processed hashes as sets, and no duplicates when clean. -/
def SparseInv (L : Nat) (processed : List Nat) (s : Buf) : Prop :=
  s.length = L ∧ Wf s ∧ byteAt s 0 &&& 64 = 0 ∧
  8 + 8 * sSize s ≤ L ∧
  (∀ y, y ∈ storedHashes s ↔ y ∈ processed) ∧
  (sDirty s = false → (storedHashes s).Nodup)


/-! ## Bridge lemmas between bit operations and arithmetic -/

/-- Masking with `2^n - 1` is reduction modulo `2^n`. -/
theorem and_mask_eq_mod (x n : Nat) : x &&& (2 ^ n - 1) = x % 2 ^ n := by
  apply Nat.eq_of_testBit_eq
  intro i
  simp [Nat.testBit_and, Nat.testBit_mod_two_pow, Bool.and_comm]

/-- Bitwise or of a multiple of `2^n` with a value below `2^n` is addition. -/
theorem or_eq_add_of_disjoint (c b n : Nat) (hb : b < 2 ^ n) :
    2 ^ n * c ||| b = 2 ^ n * c + b :=
  (Nat.mul_add_lt_is_or hb c).symm

theorem shiftRight_eq_div (x n : Nat) : x >>> n = x / 2 ^ n :=
  Nat.shiftRight_eq_div_pow x n

theorem shiftLeft_eq_mul (x n : Nat) : x <<< n = x * 2 ^ n :=
  Nat.shiftLeft_eq x n

/-- `x &&& 255` extracts the low byte. -/
theorem and_255_eq_mod (x : Nat) : x &&& 255 = x % 256 := and_mask_eq_mod x 8

/-- `and` with a single power of two isolates that bit. -/
theorem and_two_pow_eq_ite (x n : Nat) :
    x &&& 2 ^ n = if x.testBit n then 2 ^ n else 0 := by
  apply Nat.eq_of_testBit_eq
  intro i
  cases h : x.testBit n
  · simp only [h, Bool.false_eq_true, if_false, Nat.zero_testBit, Nat.testBit_and]
    by_cases hin : i = n
    · subst hin; simp [h]
    · simp [Nat.testBit_two_pow_of_ne (fun he => hin he.symm)]
  · simp only [h, if_true, Nat.testBit_and]
    by_cases hin : i = n
    · subst hin; simp [h, Nat.testBit_two_pow_self]
    · simp [Nat.testBit_two_pow_of_ne (fun he => hin he.symm)]

/-- Testing a single bit through an `and` with a power of two. -/
theorem and_two_pow_ne_zero_iff (x n : Nat) :
    x &&& 2 ^ n ≠ 0 ↔ x.testBit n = true := by
  rw [and_two_pow_eq_ite]
  cases h : x.testBit n <;> simp [h, (Nat.two_pow_pos n).ne']

theorem wr_length (b : Buf) (off : Nat) (bs : Buf)
    (h : off + bs.length ≤ b.length) : (wr b off bs).length = b.length := by
  simp [wr]
  omega

theorem byteAt_wr_left (b : Buf) (off : Nat) (bs : Buf) (i : Nat)
    (h : i < off) (hoff : off ≤ b.length) :
    byteAt (wr b off bs) i = byteAt b i := by
  unfold byteAt wr
  rw [List.getD_eq_getElem?_getD, List.getD_eq_getElem?_getD]
  rw [List.append_assoc, List.getElem?_append_left (by simp; omega)]
  rw [List.getElem?_take_of_lt h]

theorem byteAt_wr_mid (b : Buf) (off : Nat) (bs : Buf) (i : Nat)
    (h1 : off ≤ i) (h2 : i < off + bs.length) (hoff : off ≤ b.length) :
    byteAt (wr b off bs) i = byteAt bs (i - off) := by
  unfold byteAt wr
  rw [List.getD_eq_getElem?_getD, List.getD_eq_getElem?_getD]
  have hlen : (b.take off).length = off := by simp; omega
  rw [List.append_assoc, List.getElem?_append_right (by simp; omega)]
  rw [List.getElem?_append_left (by simp [hlen]; omega)]
  rw [hlen]

theorem byteAt_wr_right (b : Buf) (off : Nat) (bs : Buf) (i : Nat)
    (h : off + bs.length ≤ i) (hoff : off + bs.length ≤ b.length) :
    byteAt (wr b off bs) i = byteAt b i := by
  unfold byteAt wr
  rw [List.getD_eq_getElem?_getD, List.getD_eq_getElem?_getD]
  have hlen : (b.take off).length = off := by simp; omega
  rw [List.append_assoc, List.getElem?_append_right (by simp; omega)]
  rw [List.getElem?_append_right (by simp [hlen]; omega)]
  simp only [List.length_append, hlen, List.getElem?_drop]
  have hidx : off + bs.length + (i - off - bs.length) = i := by omega
  rw [hidx]

theorem rd_eq_map (b : Buf) (off k : Nat) (h : off + k ≤ b.length) :
    rd b off k = (List.range k).map (fun j => byteAt b (off + j)) := by
  apply List.ext_getElem
  · simp [rd]; omega
  · intro i h1 h2
    simp only [rd] at h1
    simp only [rd, List.getElem_take, List.getElem_drop, List.getElem_map,
      List.getElem_range]
    simp [byteAt, List.getD_eq_getElem?_getD, List.getElem?_eq_getElem
      (by simp at h1 ⊢; omega : off + i < b.length)]

theorem rd_length (b : Buf) (off k : Nat) (h : off + k ≤ b.length) :
    (rd b off k).length = k := by
  simp [rd]; omega

theorem byteAt_rd (b : Buf) (off k j : Nat) (hj : j < k) (h : off + k ≤ b.length) :
    byteAt (rd b off k) j = byteAt b (off + j) := by
  rw [rd_eq_map b off k h]
  unfold byteAt
  rw [List.getD_eq_getElem?_getD, List.getElem?_map]
  simp [List.getElem?_range hj]

theorem zeros_length (n : Nat) : (zeros n).length = n := by simp [zeros]

theorem byteAt_zeros (n i : Nat) : byteAt (zeros n) i = 0 := by
  unfold byteAt zeros
  rw [List.getD_eq_getElem?_getD, List.getElem?_replicate]
  split <;> simp

theorem leU64bytes_length (v : Nat) : (leU64bytes v).length = 8 := rfl

theorem leU64bytes_wf (v : Nat) : Wf (leU64bytes v) := by
  intro x hx
  simp only [leU64bytes, List.mem_cons, List.not_mem_nil, or_false] at hx
  rcases hx with h | h | h | h | h | h | h | h <;>
    (subst h; rw [and_255_eq_mod]; omega)

theorem leBytes_leU64bytes (v : Nat) (hv : v < 2 ^ 64) :
    leBytes (leU64bytes v) = v := by
  simp only [leU64bytes, leBytes, and_255_eq_mod, shiftRight_eq_div]
  norm_num
  omega

theorem leU64bytes_leBytes (c : Buf) (hlen : c.length = 8) (hwf : Wf c) :
    leU64bytes (leBytes c) = c := by
  match c, hlen with
  | [b0, b1, b2, b3, b4, b5, b6, b7], _ =>
    have h0 : b0 < 256 := hwf b0 (by simp)
    have h1 : b1 < 256 := hwf b1 (by simp)
    have h2 : b2 < 256 := hwf b2 (by simp)
    have h3 : b3 < 256 := hwf b3 (by simp)
    have h4 : b4 < 256 := hwf b4 (by simp)
    have h5 : b5 < 256 := hwf b5 (by simp)
    have h6 : b6 < 256 := hwf b6 (by simp)
    have h7 : b7 < 256 := hwf b7 (by simp)
    simp only [leU64bytes, leBytes, and_255_eq_mod, shiftRight_eq_div]
    norm_num
    refine ⟨by omega, by omega, by omega, by omega, by omega, by omega, by omega, by omega⟩

theorem leBytes_lt (c : Buf) (hlen : c.length = 8) (hwf : Wf c) :
    leBytes c < 2 ^ 64 := by
  match c, hlen with
  | [b0, b1, b2, b3, b4, b5, b6, b7], _ =>
    have h0 : b0 < 256 := hwf b0 (by simp)
    have h1 : b1 < 256 := hwf b1 (by simp)
    have h2 : b2 < 256 := hwf b2 (by simp)
    have h3 : b3 < 256 := hwf b3 (by simp)
    have h4 : b4 < 256 := hwf b4 (by simp)
    have h5 : b5 < 256 := hwf b5 (by simp)
    have h6 : b6 < 256 := hwf b6 (by simp)
    have h7 : b7 < 256 := hwf b7 (by simp)
    simp only [leBytes]
    norm_num
    omega

theorem or_shiftLeft_eq_add (x b k : Nat) (hx : x < 2 ^ k) :
    x ||| b <<< k = b * 2 ^ k + x := by
  rw [shiftLeft_eq_mul, Nat.lor_comm, Nat.mul_comm b (2 ^ k),
    or_eq_add_of_disjoint b x k hx, Nat.mul_comm]

/-- With byte-valued entries, the big-endian 32-bit decode is the base-256
value of the first four bytes. -/
theorem beU32_eq_sum (b : Buf)
    (h1 : byteAt b 1 < 256)
    (h2 : byteAt b 2 < 256) (h3 : byteAt b 3 < 256) :
    beU32 b = byteAt b 0 * 2 ^ 24 + byteAt b 1 * 2 ^ 16 +
      byteAt b 2 * 2 ^ 8 + byteAt b 3 := by
  unfold beU32
  rw [or_shiftLeft_eq_add _ _ 8 (by omega)]
  rw [or_shiftLeft_eq_add _ _ 16 (by norm_num; omega)]
  rw [or_shiftLeft_eq_add _ _ 24 (by norm_num; omega)]
  ring

/-- With byte-valued entries, the big-endian 64-bit decode is the base-256
value of the first eight bytes. -/
theorem beU64_eq_sum (b : Buf)
    (hw : ∀ i < 8, byteAt b i < 256) :
    beU64 b = byteAt b 0 * 2 ^ 56 + byteAt b 1 * 2 ^ 48 +
      byteAt b 2 * 2 ^ 40 + byteAt b 3 * 2 ^ 32 + byteAt b 4 * 2 ^ 24 +
      byteAt b 5 * 2 ^ 16 + byteAt b 6 * 2 ^ 8 + byteAt b 7 := by
  have h1 := hw 1 (by omega)
  have h2 := hw 2 (by omega); have h3 := hw 3 (by omega)
  have h4 := hw 4 (by omega); have h5 := hw 5 (by omega)
  have h6 := hw 6 (by omega); have h7 := hw 7 (by omega)
  unfold beU64
  rw [or_shiftLeft_eq_add _ _ 8 (by omega)]
  rw [or_shiftLeft_eq_add _ _ 16 (by norm_num; omega)]
  rw [or_shiftLeft_eq_add _ _ 24 (by norm_num; omega)]
  rw [or_shiftLeft_eq_add _ _ 32 (by norm_num; omega)]
  rw [or_shiftLeft_eq_add _ _ 40 (by norm_num; omega)]
  rw [or_shiftLeft_eq_add _ _ 48 (by norm_num; omega)]
  rw [or_shiftLeft_eq_add _ _ 56 (by norm_num; omega)]
  ring

theorem byteAt_set (l : Buf) (j v i : Nat) :
    byteAt (l.set j v) i = if j = i ∧ j < l.length then v else byteAt l i := by
  unfold byteAt
  rw [List.getD_eq_getElem?_getD, List.getD_eq_getElem?_getD, List.getElem?_set]
  by_cases hji : j = i
  · subst hji
    by_cases hlt : j < l.length
    · simp [hlt]
    · have hnone : l[j]? = none := List.getElem?_eq_none (by omega)
      simp [hlt, hnone]
  · simp [hji, fun h => hji (And.left h)]

theorem byteAt_drop (l : Buf) (n i : Nat) :
    byteAt (l.drop n) i = byteAt l (n + i) := by
  unfold byteAt
  rw [List.getD_eq_getElem?_getD, List.getD_eq_getElem?_getD, List.getElem?_drop]

/-! ## Byte-level value lemmas for the packed-register layout -/

theorem xor_eq_add_of_disjoint (c b n : Nat) (hb : b < 2 ^ n) :
    2 ^ n * c ^^^ b = 2 ^ n * c + b := by
  apply Nat.eq_of_testBit_eq
  intro i
  rw [← or_eq_add_of_disjoint c b n hb, Nat.testBit_xor, Nat.testBit_or]
  rcases Nat.lt_or_ge i n with h | h
  · have hc : (2 ^ n * c).testBit i = false := by
      rw [Nat.testBit_mul_pow_two]
      simp [Nat.not_le_of_lt h]
    simp [hc]
  · have hb' : b.testBit i = false :=
      Nat.testBit_lt_two_pow (Nat.lt_of_lt_of_le hb (Nat.pow_le_pow_right (by omega) h))
    simp [hb']

theorem and_3_eq_mod (x : Nat) : x &&& 3 = x % 4 := by
  have h := and_mask_eq_mod x 2
  norm_num at h
  exact h

theorem shiftr2_eq_div (x : Nat) : x >>> 2 = x / 4 := by
  have h := shiftRight_eq_div x 2
  norm_num at h
  exact h

set_option maxRecDepth 4096 in
theorem and_252_eq : ∀ b < 256, b &&& 252 = 4 * (b / 4) := by decide

theorem wf_byteAt (h : Buf) (hw : Wf h) (k : Nat) : byteAt h k < 256 := by
  unfold byteAt
  rw [List.getD_eq_getElem?_getD]
  cases hx : h[k]? with
  | none => simp
  | some x =>
    have hmem : x ∈ h := List.getElem?_mem hx
    simpa using hw x hmem

/-- Writing register value `v` into the high six bits with an `or`
(the fast path of `Dense.Add`). -/
theorem low_or_shift (b v : Nat) : (b &&& 3) ||| (v <<< 2) = 4 * v + b % 4 := by
  rw [and_3_eq_mod, Nat.lor_comm]
  have hs : v <<< 2 = 2 ^ 2 * v := by rw [shiftLeft_eq_mul]; ring
  rw [hs, or_eq_add_of_disjoint v (b % 4) 2 (by omega)]
  ring

/-- Writing register value `v` into the high six bits with an `xor`
(`Dense.set`, slots 0-2). -/
theorem low_xor_shift (b v : Nat) : (b &&& 3) ^^^ (v <<< 2) = 4 * v + b % 4 := by
  rw [and_3_eq_mod, Nat.xor_comm]
  have hs : v <<< 2 = 2 ^ 2 * v := by rw [shiftLeft_eq_mul]; ring
  rw [hs, xor_eq_add_of_disjoint v (b % 4) 2 (by omega)]
  ring

/-- Variant of `low_xor_shift` with the mask already turned into `% 4`. -/
theorem low_xor_shift' (b v : Nat) : (b % 4) ^^^ (v <<< 2) = 4 * v + b % 4 := by
  rw [Nat.xor_comm]
  have hs : v <<< 2 = 2 ^ 2 * v := by rw [shiftLeft_eq_mul]; ring
  rw [hs, xor_eq_add_of_disjoint v (b % 4) 2 (by omega)]
  ring

/-- Writing two low bits with an `xor` while keeping the high six bits
(`Dense.set` and `Dense.Add`, slot 3; `Dense.Merge`). -/
theorem high_xor (b x : Nat) (hb : b < 256) (hx : x < 4) :
    (b &&& 252) ^^^ x = 4 * (b / 4) + x := by
  rw [and_252_eq b hb]
  have h4 : 4 * (b / 4) = 2 ^ 2 * (b / 4) := by norm_num
  rw [h4, xor_eq_add_of_disjoint (b / 4) x 2 hx]

set_option maxRecDepth 4096 in
/-- Reassembling the scattered register `d` from the three low-bit pairs. -/
theorem dAssembly : ∀ a < 4, ∀ b < 4, ∀ c < 4,
    ((a <<< 4) ^^^ (b <<< 2)) ^^^ c = 16 * a + 4 * b + c := by decide

/-- Closed form of `denseGet` in terms of byte arithmetic. -/
theorem denseGet_eq (h : Buf) (i : Nat) :
    denseGet h i =
      if i % 4 = 3 then
        16 * (byteAt h (i / 4 * 3) % 4) + 4 * (byteAt h (i / 4 * 3 + 1) % 4) +
          byteAt h (i / 4 * 3 + 2) % 4
      else byteAt h (i / 4 * 3 + i % 4) / 4 := by
  unfold denseGet
  simp only [shiftr2_eq_div, and_3_eq_mod]
  by_cases h3 : i % 4 = 3
  · simp only [h3, if_true, ne_eq, not_true_eq_false, if_false]
    rw [dAssembly (byteAt h (i / 4 * 3) % 4) (by omega)
        (byteAt h (i / 4 * 3 + 1) % 4) (by omega)
        (byteAt h (i / 4 * 3 + 2) % 4) (by omega)]
  · simp [h3]

theorem denseM_eq (h : Buf) : denseM h = h.length / 3 * 4 := by
  unfold denseM
  rw [shiftLeft_eq_mul]
  norm_num

theorem group_bound (h : Buf) (i : Nat) (h3 : h.length % 3 = 0)
    (hi : i < denseM h) : i / 4 * 3 + 2 < h.length := by
  rw [denseM_eq] at hi
  omega

theorem denseSet_length (h : Buf) (i v : Nat) :
    (denseSet h i v).length = h.length := by
  simp only [denseSet]
  split <;> simp

theorem shiftr4_eq_div (x : Nat) : x >>> 4 = x / 16 := by
  have h := shiftRight_eq_div x 4
  norm_num at h
  exact h

theorem byteAt_set3 (l : Buf) (a u0 u1 u2 k : Nat) (ha : a + 2 < l.length) :
    byteAt (((l.set a u0).set (a + 1) u1).set (a + 2) u2) k =
      if k = a then u0
      else if k = a + 1 then u1
      else if k = a + 2 then u2
      else byteAt l k := by
  by_cases h0 : k = a
  · subst h0
    rw [byteAt_set, if_neg (by omega), byteAt_set, if_neg (by omega),
      byteAt_set, if_pos ⟨rfl, by omega⟩, if_pos rfl]
  · by_cases h1 : k = a + 1
    · subst h1
      rw [byteAt_set, if_neg (by omega), byteAt_set, List.length_set,
        if_pos ⟨rfl, by omega⟩, if_neg h0, if_pos rfl]
    · by_cases h2 : k = a + 2
      · subst h2
        rw [byteAt_set, List.length_set, List.length_set,
          if_pos ⟨rfl, by omega⟩, if_neg h0, if_neg h1, if_pos rfl]
      · rw [byteAt_set, if_neg (by omega), byteAt_set, if_neg (by omega),
          byteAt_set, if_neg (by omega), if_neg h0, if_neg h1, if_neg h2]

/-- `get` after `set` at the same register returns the written value. -/
theorem denseGet_denseSet_same (h : Buf) (i v : Nat) (hw : Wf h)
    (h3 : h.length % 3 = 0) (hi : i < denseM h) (hv : v < 64) :
    denseGet (denseSet h i v) i = v := by
  have hb2 : i / 4 * 3 + 2 < h.length := group_bound h i h3 hi
  have e0 : byteAt h (i / 4 * 3) < 256 := wf_byteAt h hw _
  have e1 : byteAt h (i / 4 * 3 + 1) < 256 := wf_byteAt h hw _
  have e2 : byteAt h (i / 4 * 3 + 2) < 256 := wf_byteAt h hw _
  rw [denseGet_eq]
  simp only [denseSet, shiftr2_eq_div, shiftr4_eq_div, and_3_eq_mod]
  by_cases hs3 : i % 4 = 3
  · simp only [hs3, ne_eq, not_true_eq_false, if_false, if_true]
    rw [high_xor _ _ e0 (by omega), high_xor _ _ e1 (by omega),
      high_xor _ _ e2 (by omega)]
    rw [byteAt_set3 _ _ _ _ _ _ (by omega), byteAt_set3 _ _ _ _ _ _ (by omega),
      byteAt_set3 _ _ _ _ _ _ (by omega)]
    rw [if_pos rfl, if_neg (by omega), if_pos rfl,
      if_neg (by omega), if_neg (by omega), if_pos rfl]
    omega
  · simp only [hs3, ne_eq, not_false_eq_true, if_true, if_false]
    rw [low_xor_shift']
    rw [byteAt_set, if_pos ⟨rfl, by omega⟩]
    omega

theorem byteAt_set3_miss (l : Buf) (a u0 u1 u2 k : Nat) (ha : a + 2 < l.length)
    (h0 : k ≠ a) (h1 : k ≠ a + 1) (h2 : k ≠ a + 2) :
    byteAt (((l.set a u0).set (a + 1) u1).set (a + 2) u2) k = byteAt l k := by
  rw [byteAt_set3 _ _ _ _ _ _ ha, if_neg h0, if_neg h1, if_neg h2]

/-- `set` at register `i` leaves every other register `j` unchanged. -/
theorem denseGet_denseSet_frame (h : Buf) (i j v : Nat) (hw : Wf h)
    (h3 : h.length % 3 = 0) (hi : i < denseM h) (hj : j < denseM h)
    (hne : j ≠ i) (hv : v < 64) :
    denseGet (denseSet h i v) j = denseGet h j := by
  have hb2 : i / 4 * 3 + 2 < h.length := group_bound h i h3 hi
  have hbj : j / 4 * 3 + 2 < h.length := group_bound h j h3 hj
  have e0 : byteAt h (i / 4 * 3) < 256 := wf_byteAt h hw _
  have e1 : byteAt h (i / 4 * 3 + 1) < 256 := wf_byteAt h hw _
  have e2 : byteAt h (i / 4 * 3 + 2) < 256 := wf_byteAt h hw _
  rw [denseGet_eq, denseGet_eq]
  simp only [denseSet, shiftr2_eq_div, shiftr4_eq_div, and_3_eq_mod]
  by_cases hsi : i % 4 = 3
  · rw [if_neg (not_not_intro hsi)]
    rw [high_xor _ _ e0 (by omega), high_xor _ _ e1 (by omega),
      high_xor _ _ e2 (by omega)]
    by_cases hg : j / 4 = i / 4
    · have hsj : ¬ j % 4 = 3 := by
        intro hc
        exact hne (by omega)
      rw [if_neg hsj, if_neg hsj, hg]
      have hcases : j % 4 = 0 ∨ j % 4 = 1 ∨ j % 4 = 2 := by omega
      rcases hcases with hc | hc | hc
      · rw [hc]
        simp only [Nat.add_zero]
        rw [byteAt_set3 _ _ _ _ _ _ (by omega), if_pos rfl]
        omega
      · rw [hc, byteAt_set3 _ _ _ _ _ _ (by omega),
          if_neg (by omega), if_pos rfl]
        omega
      · rw [hc, byteAt_set3 _ _ _ _ _ _ (by omega),
          if_neg (by omega), if_neg (by omega), if_pos rfl]
        omega
    · by_cases hsj : j % 4 = 3
      · rw [if_pos hsj, if_pos hsj]
        rw [byteAt_set3_miss _ _ _ _ _ _ (by omega) (by omega) (by omega) (by omega)]
        rw [byteAt_set3_miss _ _ _ _ _ _ (by omega) (by omega) (by omega) (by omega)]
        rw [byteAt_set3_miss _ _ _ _ _ _ (by omega) (by omega) (by omega) (by omega)]
      · rw [if_neg hsj, if_neg hsj]
        rw [byteAt_set3_miss _ _ _ _ _ _ (by omega) (by omega) (by omega) (by omega)]
  · rw [if_pos hsi]
    rw [low_xor_shift']
    by_cases hsj : j % 4 = 3
    · rw [if_pos hsj, if_pos hsj]
      by_cases hg : j / 4 = i / 4
      · rw [hg]
        have hcases : i % 4 = 0 ∨ i % 4 = 1 ∨ i % 4 = 2 := by omega
        rcases hcases with hc | hc | hc
        · rw [hc]
          simp only [Nat.add_zero]
          rw [byteAt_set, byteAt_set, byteAt_set,
            if_pos ⟨rfl, by omega⟩, if_neg (by omega), if_neg (by omega)]
          omega
        · rw [hc, byteAt_set, byteAt_set, byteAt_set,
            if_neg (by omega), if_pos ⟨rfl, by omega⟩, if_neg (by omega)]
          omega
        · rw [hc, byteAt_set, byteAt_set, byteAt_set,
            if_neg (by omega), if_neg (by omega), if_pos ⟨rfl, by omega⟩]
          omega
      · rw [byteAt_set, byteAt_set, byteAt_set]
        rw [if_neg (by omega), if_neg (by omega), if_neg (by omega)]
    · rw [if_neg hsj, if_neg hsj]
      rw [byteAt_set, if_neg (by omega)]

theorem byteAt_cons_zero (a : Nat) (l : Buf) : byteAt (a :: l) 0 = a := rfl

theorem byteAt_cons_succ (a : Nat) (l : Buf) (n : Nat) :
    byteAt (a :: l) (n + 1) = byteAt l n := by
  unfold byteAt
  rw [List.getD_eq_getElem?_getD, List.getD_eq_getElem?_getD,
    List.getElem?_cons_succ]

theorem byteAt_cons3 (b0 b1 b2 : Nat) (t : Buf) (n : Nat) :
    byteAt (b0 :: b1 :: b2 :: t) (n + 3) = byteAt t n := by
  have h1 : n + 3 = (n + 2) + 1 := by ring
  have h2 : n + 2 = (n + 1) + 1 := by ring
  rw [h1, byteAt_cons_succ, h2, byteAt_cons_succ, byteAt_cons_succ]

theorem four_xor_mod (a b : Nat) : (4 * a) ^^^ (b % 4) = 4 * a + b % 4 := by
  have h4 : 4 * a = 2 ^ 2 * a := by norm_num
  rw [h4, xor_eq_add_of_disjoint a (b % 4) 2 (by omega)]

/-- Register `s` of a merged three-byte group is the maximum of the two
input registers `s`. -/
theorem denseGet_mg3 (x0 x1 x2 y0 y1 y2 : Nat)
    (ex0 : x0 < 256) (ex1 : x1 < 256) (ex2 : x2 < 256)
    (ey0 : y0 < 256) (ey1 : y1 < 256) (ey2 : y2 < 256)
    (s : Nat) (hs : s < 4) :
    denseGet (mg3 x0 x1 x2 y0 y1 y2) s =
      max (denseGet [x0, x1, x2] s) (denseGet [y0, y1, y2] s) := by
  unfold mg3
  simp only [and_3_eq_mod, and_252_eq x0 ex0, and_252_eq x1 ex1,
    and_252_eq x2 ex2, and_252_eq y0 ey0, and_252_eq y1 ey1,
    and_252_eq y2 ey2]
  have hd : ∀ a b c : Nat,
      ((a % 4) <<< 4) ^^^ ((b % 4) <<< 2) ^^^ (c % 4) =
        16 * (a % 4) + 4 * (b % 4) + c % 4 := by
    intro a b c
    exact dAssembly (a % 4) (by omega) (b % 4) (by omega) (c % 4) (by omega)
  rw [hd, hd]
  interval_cases s <;>
    rw [denseGet_eq, denseGet_eq, denseGet_eq] <;>
    norm_num <;>
    split_ifs <;>
    simp only [byteAt_cons_zero, byteAt_cons_succ, four_xor_mod] <;>
    omega

theorem denseGet_cons3_shift (b0 b1 b2 : Nat) (t : Buf) (i : Nat) :
    denseGet (b0 :: b1 :: b2 :: t) (i + 4) = denseGet t i := by
  rw [denseGet_eq, denseGet_eq]
  have hd : (i + 4) / 4 = i / 4 + 1 := by omega
  have hm : (i + 4) % 4 = i % 4 := by omega
  have hidx : (i / 4 + 1) * 3 = i / 4 * 3 + 3 := by ring
  rw [hd, hm, hidx]
  have ha1 : i / 4 * 3 + 3 + 1 = (i / 4 * 3 + 1) + 3 := by ring
  have ha2 : i / 4 * 3 + 3 + 2 = (i / 4 * 3 + 2) + 3 := by ring
  have ha3 : i / 4 * 3 + 3 + i % 4 = (i / 4 * 3 + i % 4) + 3 := by ring
  rw [ha1, ha2, ha3, byteAt_cons3, byteAt_cons3, byteAt_cons3, byteAt_cons3]

theorem mg3_shape (x0 x1 x2 y0 y1 y2 : Nat) :
    ∃ a b c, mg3 x0 x1 x2 y0 y1 y2 = [a, b, c] := by
  simp only [mg3]
  split
  · exact ⟨_, _, _, rfl⟩
  · exact ⟨_, _, _, rfl⟩

theorem denseGet_small_append (l : Buf) (t : Buf) (i : Nat)
    (hl : l.length = 3) (hi : i < 4) :
    denseGet (l ++ t) i = denseGet l i := by
  match l, hl with
  | [a, b, c], _ =>
    rw [denseGet_eq, denseGet_eq]
    have hd : i / 4 = 0 := by omega
    rw [hd]
    by_cases h3 : i % 4 = 3
    · simp [h3, List.cons_append, byteAt_cons_zero, byteAt_cons_succ]
    · have : i % 4 = i := by omega
      simp only [h3, if_false]
      rcases (by omega : i = 0 ∨ i = 1 ∨ i = 2) with hc | hc | hc <;>
        simp [hc, List.cons_append, byteAt_cons_zero, byteAt_cons_succ]

/-- Every register of `denseMergeLoop h g` is the maximum of the
corresponding registers of `h` and `g`. -/
theorem denseMergeLoop_get : ∀ (h g : Buf), Wf h → Wf g → h.length = g.length →
    h.length % 3 = 0 → ∀ i, i < denseM h →
    denseGet (denseMergeLoop h g) i = max (denseGet h i) (denseGet g i)
  | [], _, _, _, _, _, i, hi => by
    rw [denseM_eq] at hi
    simp at hi
  | [x], _, _, _, _, h3, i, hi => by simp at h3
  | [x, x'], _, _, _, _, h3, i, hi => by simp at h3
  | x0 :: x1 :: x2 :: hs, [], _, _, hlen, _, i, hi => by simp at hlen
  | x0 :: x1 :: x2 :: hs, [y], _, _, hlen, _, i, hi => by simp at hlen
  | x0 :: x1 :: x2 :: hs, [y, y'], _, _, hlen, _, i, hi => by simp at hlen
  | x0 :: x1 :: x2 :: hs, y0 :: y1 :: y2 :: gs, hw, hwg, hlen, h3, i, hi => by
    have ex0 : x0 < 256 := hw x0 (by simp)
    have ex1 : x1 < 256 := hw x1 (by simp)
    have ex2 : x2 < 256 := hw x2 (by simp)
    have ey0 : y0 < 256 := hwg y0 (by simp)
    have ey1 : y1 < 256 := hwg y1 (by simp)
    have ey2 : y2 < 256 := hwg y2 (by simp)
    have hloop : denseMergeLoop (x0 :: x1 :: x2 :: hs) (y0 :: y1 :: y2 :: gs) =
        mg3 x0 x1 x2 y0 y1 y2 ++ denseMergeLoop hs gs := rfl
    rw [hloop]
    rcases Nat.lt_or_ge i 4 with h4 | h4
    · obtain ⟨a, b, c, hm⟩ := mg3_shape x0 x1 x2 y0 y1 y2
      rw [denseGet_small_append _ _ i (by rw [hm]; rfl) h4]
      rw [denseGet_mg3 x0 x1 x2 y0 y1 y2 ex0 ex1 ex2 ey0 ey1 ey2 i h4]
      have gx : denseGet (x0 :: x1 :: x2 :: hs) i = denseGet [x0, x1, x2] i := by
        rw [denseGet_eq, denseGet_eq]
        have hd : i / 4 = 0 := by omega
        rw [hd]
        by_cases hc : i % 4 = 3
        · simp [hc, byteAt_cons_zero, byteAt_cons_succ]
        · have : i % 4 = i := by omega
          simp only [hc, if_false]
          rcases (by omega : i = 0 ∨ i = 1 ∨ i = 2) with h | h | h <;>
            simp [h, byteAt_cons_zero, byteAt_cons_succ]
      have gy : denseGet (y0 :: y1 :: y2 :: gs) i = denseGet [y0, y1, y2] i := by
        rw [denseGet_eq, denseGet_eq]
        have hd : i / 4 = 0 := by omega
        rw [hd]
        by_cases hc : i % 4 = 3
        · simp [hc, byteAt_cons_zero, byteAt_cons_succ]
        · have : i % 4 = i := by omega
          simp only [hc, if_false]
          rcases (by omega : i = 0 ∨ i = 1 ∨ i = 2) with h | h | h <;>
            simp [h, byteAt_cons_zero, byteAt_cons_succ]
      rw [gx, gy]
    · obtain ⟨i', rfl⟩ : ∃ i', i = i' + 4 := ⟨i - 4, by omega⟩
      obtain ⟨a, b, c, hm⟩ := mg3_shape x0 x1 x2 y0 y1 y2
      rw [hm]
      have happ : ([a, b, c] : Buf) ++ denseMergeLoop hs gs =
          a :: b :: c :: denseMergeLoop hs gs := rfl
      rw [happ, denseGet_cons3_shift, denseGet_cons3_shift, denseGet_cons3_shift]
      have hwt : Wf hs := fun x hx => hw x (by simp [hx])
      have hwgt : Wf gs := fun x hx => hwg x (by simp [hx])
      have hlent : hs.length = gs.length := by simp at hlen; omega
      have h3t : hs.length % 3 = 0 := by simp at h3; omega
      have hit : i' < denseM hs := by
        rw [denseM_eq] at hi ⊢
        simp at hi
        omega
      exact denseMergeLoop_get hs gs hwt hwgt hlent h3t i' hit

/-! ## Facade merge helper lemmas -/

theorem hllMerge_mismatch (h g : Buf) (hne : h.length ≠ g.length) :
    hllMerge h g = (h, true) := by
  unfold hllMerge
  rw [if_pos hne]

theorem hllMerge_no_error (h g : Buf) (heq : h.length = g.length) :
    (hllMerge h g).2 = false := by
  unfold hllMerge
  rw [if_neg (not_not_intro heq)]
  by_cases h1 : byteAt h 0 &&& 64 ≠ 0
  · rw [if_pos h1]
    by_cases h2 : byteAt g 0 &&& 64 ≠ 0
    · rw [if_pos h2]
    · rw [if_neg h2]
  · rw [if_neg h1]
    by_cases h2 : byteAt g 0 &&& 64 ≠ 0
    · rw [if_pos h2]
    · rw [if_neg h2]
      rcases hm : mergeIntoSparse h g with ⟨h1', r⟩
      cases r
      · simp [hm]
      · simp [hm]

/-- C1: in the dense `estimate_cardinality` loop, the claim says the
empty-register count `V` counts each of the four registers of every
three-byte group exactly once.  The code tests `v2` twice and never `v3`:
on the buffer whose first group holds registers `a=b=c=1, d=0` (bytes
`4,4,4`) and three all-zero groups, the code computes `V = 12` while the
count prescribed by the spec is `13`. -/
theorem c1_countV_skips_register_d :
    countV [4, 4, 4, 0, 0, 0, 0, 0, 0, 0, 0, 0] = 12 ∧
      countVSpec [4, 4, 4, 0, 0, 0, 0, 0, 0, 0, 0, 0] = 13 := by decide

/-- C6 counterexample: after the compact-dedup sort, the stored hashes
decoded as little-endian 64-bit values are not ascending in unsigned
integer order: sorting a dirty sparse buffer holding `{1, 256}` stores
them in the order `[256, 1]`, because `sortable.Less` compares the stored
little-endian bytes with the first (least significant) byte as most
significant comparand. -/
theorem c6_sort_not_u64_ascending :
    storedHashes (sparseSort (hllAdd (hllAdd (zeros 32) 1) 256)) = [256, 1] ∧
      ¬ List.Sorted (· ≤ ·)
          (storedHashes (sparseSort (hllAdd (hllAdd (zeros 32) 1) 256))) := by
  decide

/-- C7 counterexample: `reset` is listed among the operations that never
leave a dense buffer sparse, but resetting the dense buffer `64 :: zeros 19`
zeroes the header, and the buffer reports sparse afterwards. -/
theorem c7_reset_leaves_sparse :
    hllIsSparse (64 :: zeros 19) = false ∧
      hllIsSparse (hllReset (64 :: zeros 19)) = true := by decide

/-- C9: `HLL.Merge` returns the size-mismatch error exactly when the two
buffers have different lengths; on that error the receiver is unchanged
(and the argument is never written in any path); with equal lengths no
mode combination produces an error. -/
theorem c9_merge_error_iff (h g : Buf) :
    ((hllMerge h g).2 = true ↔ h.length ≠ g.length) ∧
    (h.length ≠ g.length → (hllMerge h g).1 = h) := by
  refine ⟨⟨?_, ?_⟩, ?_⟩
  · intro he
    by_contra heq
    rw [hllMerge_no_error h g heq] at he
    simp at he
  · intro hne
    rw [hllMerge_mismatch h g hne]
  · intro hne
    rw [hllMerge_mismatch h g hne]

/-- C5: merging dense buffer `g` into `h` (equal lengths) makes every
register of `h` the maximum of the two corresponding registers, the
scattered register `d` included; the source never writes `g`, so the
embedding leaves it untouched by construction. -/
theorem c5_dense_merge_is_max (h g : Buf) (hw : Wf h) (hwg : Wf g)
    (hlen : h.length = g.length) (h3 : h.length % 3 = 0)
    (i : Nat) (hi : i < denseM h) :
    denseGet (denseMerge h g).1 i = max (denseGet h i) (denseGet g i) := by
  unfold denseMerge
  rw [if_neg (not_not_intro hlen)]
  exact denseMergeLoop_get h g hw hwg hlen h3 i hi

/-- Witness for C5 at a concrete pair of one-group buffers and the
scattered register `d`. -/
theorem c5_dense_merge_is_max_witness :
    denseGet (denseMerge [4, 4, 4] [8, 0, 1]).1 3 =
      max (denseGet [4, 4, 4] 3) (denseGet [8, 0, 1] 3) :=
  c5_dense_merge_is_max [4, 4, 4] [8, 0, 1] (by decide) (by decide)
    (by decide) (by decide) 3 (by decide)

/-- C10: `Dense.set` at register `i` with a six-bit value round-trips
through `Dense.get`, and every other register `j`, including the
scattered register `d` sharing bytes with `i`, is unchanged. -/
theorem c10_set_get_frame (h : Buf) (i j v : Nat) (hw : Wf h)
    (h3 : h.length % 3 = 0) (hi : i < denseM h) (hj : j < denseM h)
    (hne : j ≠ i) (hv : v < 64) :
    denseGet (denseSet h i v) i = v ∧
      denseGet (denseSet h i v) j = denseGet h j :=
  ⟨denseGet_denseSet_same h i v hw h3 hi hv,
   denseGet_denseSet_frame h i j v hw h3 hi hj hne hv⟩

/-- Witness for C10: write register 3 (the scattered one) of a two-group
buffer and observe register 4 untouched. -/
theorem c10_set_get_frame_witness :
    denseGet (denseSet [9, 7, 5, 1, 2, 3] 3 21) 3 = 21 ∧
      denseGet (denseSet [9, 7, 5, 1, 2, 3] 3 21) 4 =
        denseGet [9, 7, 5, 1, 2, 3] 4 :=
  c10_set_get_frame [9, 7, 5, 1, 2, 3] 3 4 21 (by decide) (by decide)
    (by decide) (by decide) (by decide) (by decide)

/-- Bit 62 of the big-endian header word is bit 6 of byte 0 (the mode
bit): there is no independent cache-validity bit in the layout. -/
theorem beU64_testBit62 (h : Buf) (hw : Wf h) :
    (beU64 h).testBit 62 = (byteAt h 0).testBit 6 := by
  have hb : ∀ i, byteAt h i < 256 := wf_byteAt h hw
  have hsum := beU64_eq_sum h (fun i _ => hb i)
  have hrest : byteAt h 1 * 2 ^ 48 + byteAt h 2 * 2 ^ 40 + byteAt h 3 * 2 ^ 32 +
      byteAt h 4 * 2 ^ 24 + byteAt h 5 * 2 ^ 16 + byteAt h 6 * 2 ^ 8 +
      byteAt h 7 < 2 ^ 56 := by
    have h1 := hb 1; have h2 := hb 2; have h3 := hb 3; have h4 := hb 4
    have h5 := hb 5; have h6 := hb 6; have h7 := hb 7
    omega
  have hform : beU64 h = 2 ^ 56 * byteAt h 0 +
      (byteAt h 1 * 2 ^ 48 + byteAt h 2 * 2 ^ 40 + byteAt h 3 * 2 ^ 32 +
       byteAt h 4 * 2 ^ 24 + byteAt h 5 * 2 ^ 16 + byteAt h 6 * 2 ^ 8 +
       byteAt h 7) := by
    rw [hsum]; ring
  rw [hform, Nat.testBit_mul_pow_two_add _ hrest 62]
  norm_num

/-- The mode-bit test `h[0] & 64 != 0` is bit 6 of byte 0. -/
theorem mode_bit_iff (x : Nat) : x &&& 64 ≠ 0 ↔ x.testBit 6 = true := by
  have h := and_two_pow_ne_zero_iff x 6
  norm_num at h
  exact h

/-- C2: in dense mode, `estimate_cardinality` returns the cached masked
header word exactly when the dirty bit is clear and bit 62 of the header
word is set.  Bit 62 coincides with the dense mode bit, so it is set for
every dense buffer and the recompute-on-invalid-cache case of the claim
cannot arise; the code's only test is the dirty bit. -/
theorem c2_cache_used_iff (dEst : Buf → Nat) (h : Buf) (hw : Wf h)
    (hd : byteAt h 0 &&& 64 ≠ 0) :
    (hllEstimateC dEst h).2.2 = true ↔
      (byteAt h 0 &&& 128 = 0 ∧ (beU64 h).testBit 62 = true) := by
  have hbit : (beU64 h).testBit 62 = true := by
    rw [beU64_testBit62 h hw]
    exact (mode_bit_iff (byteAt h 0)).mp hd
  unfold hllEstimateC
  rw [if_pos hd]
  by_cases hc : byteAt h 0 &&& 128 = 0
  · rw [if_pos hc]
    simp [hc, hbit]
  · rw [if_neg hc]
    by_cases hcard : dEst (h.drop 8) &&& (2 ^ 63 + 2 ^ 62) ≠ 0
    · rw [if_pos hcard]
      simp [hc]
    · rw [if_neg hcard]
      simp [hc]

/-- Witness for C2: a dense, clean buffer whose header caches the value 5
returns it from the cache; both sides of the equivalence hold. -/
theorem c2_cache_used_iff_witness :
    (hllEstimateC (fun _ => 0) (64 :: 0 :: 0 :: 0 :: 0 :: 0 :: 0 :: 5 :: zeros 12)).2.2 = true ↔
      (byteAt (64 :: 0 :: 0 :: 0 :: 0 :: 0 :: 0 :: 5 :: zeros 12) 0 &&& 128 = 0 ∧
        (beU64 (64 :: 0 :: 0 :: 0 :: 0 :: 0 :: 0 :: 5 :: zeros 12)).testBit 62 = true) :=
  c2_cache_used_iff (fun _ => 0) (64 :: 0 :: 0 :: 0 :: 0 :: 0 :: 0 :: 5 :: zeros 12)
    (by decide) (by decide)

theorem or128_keeps_mode (x : Nat) (hx : x &&& 64 ≠ 0) :
    (x ||| 128) &&& 64 ≠ 0 := by
  rw [mode_bit_iff] at hx ⊢
  simp [Nat.testBit_or, hx]

theorem byteAt_head_append (h : Buf) (d : Buf) (hne : h ≠ []) :
    byteAt (rd h 0 8 ++ d) 0 = byteAt h 0 := by
  have hlen : 0 < (rd h 0 8).length := by
    simp [rd]
    cases h with
    | nil => exact absurd rfl hne
    | cons a t => simp
  unfold byteAt
  rw [List.getD_eq_getElem?_getD, List.getElem?_append_left hlen]
  unfold rd
  simp only [List.drop_zero]
  rw [List.getElem?_take_of_lt (by omega), ← List.getD_eq_getElem?_getD]

theorem rd8_append_ne_nil (h d : Buf) (hne : h ≠ []) : rd h 0 8 ++ d ≠ [] := by
  have hl : 0 < h.length := List.length_pos.mpr hne
  intro hcon
  have hlen : (rd h 0 8 ++ d).length = 0 := by rw [hcon]; rfl
  rw [List.length_append] at hlen
  have h1 : (rd h 0 8).length = 0 := by omega
  unfold rd at h1
  rw [List.length_take, List.length_drop] at h1
  omega

theorem dense_nonempty (h : Buf) (hd : byteAt h 0 &&& 64 ≠ 0) : h ≠ [] := by
  intro he
  subst he
  simp [byteAt] at hd

theorem byteAt_set_zero (l : Buf) (w : Nat) (hl : l ≠ []) :
    byteAt (l.set 0 w) 0 = w := by
  rw [byteAt_set]
  rw [if_pos ⟨rfl, by cases l with | nil => exact absurd rfl hl | cons a t => simp⟩]

theorem beU64bytes_length (v : Nat) : (beU64bytes v).length = 8 := rfl

/-- The header byte written by the estimate cache update has the mode bit
set: bit 6 of `byte((card ||| 2^62) >> 56)` is bit 62 of `card ||| 2^62`,
which the `or` forces to one. -/
theorem cache_write_mode_bit (card : Nat) :
    (((card ||| 2 ^ 62) >>> 56) &&& 255) &&& 64 ≠ 0 := by
  rw [mode_bit_iff]
  have h255 : (255 : Nat) = 2 ^ 8 - 1 := by norm_num
  rw [h255, and_mask_eq_mod]
  rw [Nat.testBit_mod_two_pow]
  simp only [Nat.testBit_shiftRight, Nat.testBit_or]
  have : (56 + 6) = 62 := by norm_num
  rw [this]
  simp only [Bool.and_eq_true, decide_eq_true_eq, Bool.or_eq_true]
  exact ⟨by omega, Or.inr (by decide)⟩

/-- C7 amended: with `reset` excluded (it re-establishes the empty sparse
state by zeroing the buffer), the mode is monotonic: `add`, `merge` and
`estimate_cardinality` leave a dense buffer dense (`is_sparse` and
`validate` are pure reads). -/
theorem c7_dense_mode_sticky (h g : Buf) (hash : Nat) (dEst : Buf → Nat)
    (hd : hllIsSparse h = false) :
    hllIsSparse (hllAdd h hash) = false ∧
    hllIsSparse ((hllMerge h g).1) = false ∧
    hllIsSparse ((hllEstimateC dEst h).2.1) = false := by
  simp only [hllIsSparse, decide_eq_false_iff_not, Decidable.not_not] at hd ⊢
  have hne : h ≠ [] := dense_nonempty h hd
  refine ⟨?_, ?_, ?_⟩
  · unfold hllAdd
    rw [if_pos hd]
    by_cases hr : (denseAdd (h.drop 8) hash).2 = true
    · simp only [hr, if_true]
      rw [byteAt_set_zero _ _ (rd8_append_ne_nil h _ hne)]
      exact or128_keeps_mode _ (by rw [byteAt_head_append h _ hne]; exact hd)
    · simp only [Bool.not_eq_true] at hr
      simp only [hr, Bool.false_eq_true, if_false]
      rw [byteAt_head_append h _ hne]
      exact hd
  · unfold hllMerge
    by_cases hlen : h.length ≠ g.length
    · rw [if_pos hlen]
      exact hd
    · rw [if_neg hlen, if_pos hd]
      by_cases hg : byteAt g 0 &&& 64 ≠ 0
      · rw [if_pos hg]
        rw [byteAt_set_zero _ _ (rd8_append_ne_nil h _ hne)]
        exact or128_keeps_mode _ (by rw [byteAt_head_append h _ hne]; exact hd)
      · rw [if_neg hg]
        rw [byteAt_set_zero _ _ (rd8_append_ne_nil h _ hne)]
        exact or128_keeps_mode _ (by rw [byteAt_head_append h _ hne]; exact hd)
  · unfold hllEstimateC
    rw [if_pos hd]
    by_cases hc : byteAt h 0 &&& 128 = 0
    · rw [if_pos hc]
      exact hd
    · rw [if_neg hc]
      by_cases hcard : dEst (h.drop 8) &&& (2 ^ 63 + 2 ^ 62) ≠ 0
      · rw [if_pos hcard]
        exact hd
      · rw [if_neg hcard]
        rw [byteAt_wr_mid h 0 _ 0 (by omega)
          (by rw [beU64bytes_length]; omega) (by omega)]
        simp only [Nat.sub_zero, beU64bytes, byteAt_cons_zero]
        exact cache_write_mode_bit (dEst (h.drop 8))

/-! ## Order theory of the byte-wise key comparison -/

theorem keyLess_irrefl (a : Buf) : keyLess a a = false := by
  induction a with
  | nil => rfl
  | cons x t ih => simp [keyLess, ih]

theorem keyLess_asymm (a : Buf) : ∀ b : Buf, keyLess a b = true →
    keyLess b a = false := by
  induction a with
  | nil => intro b h; cases b <;> simp [keyLess] at h
  | cons x t ih =>
    intro b h
    cases b with
    | nil => simp [keyLess] at h
    | cons y u =>
      simp only [keyLess] at h ⊢
      by_cases hxy : x < y
      · rw [if_neg (by omega), if_pos hxy]
      · by_cases hyx : y < x
        · rw [if_neg hxy, if_pos hyx] at h
          simp at h
        · have hxe : x = y := by omega
          subst hxe
          rw [if_neg hxy, if_neg hxy] at h ⊢
          exact ih u h

theorem keyLess_trans (a : Buf) : ∀ b c : Buf, keyLess a b = true →
    keyLess b c = true → keyLess a c = true := by
  induction a with
  | nil =>
    intro b c h1 h2
    cases b <;> simp [keyLess] at h1
  | cons x t ih =>
    intro b c h1 h2
    cases b with
    | nil => simp [keyLess] at h1
    | cons y u =>
      cases c with
      | nil => simp [keyLess] at h2
      | cons z v =>
        simp only [keyLess] at h1 h2 ⊢
        by_cases hxy : x < y
        · have hyz : y < z ∨ (y = z ∧ keyLess u v = true) := by
            by_cases hyz : y < z
            · exact Or.inl hyz
            · by_cases hzy : z < y
              · rw [if_neg hyz, if_pos hzy] at h2
                simp at h2
              · rw [if_neg hyz, if_neg hzy] at h2
                exact Or.inr ⟨by omega, h2⟩
          rcases hyz with hyz | ⟨rfl, _⟩
          · rw [if_pos (by omega)]
          · rw [if_pos hxy]
        · by_cases hyx : y < x
          · rw [if_neg hxy, if_pos hyx] at h1
            simp at h1
          · have hxe : x = y := by omega
            subst hxe
            rw [if_neg hxy, if_neg hyx] at h1
            by_cases hxz : x < z
            · rw [if_pos hxz]
            · by_cases hzx : z < x
              · rw [if_neg hxz, if_pos hzx] at h2
                simp at h2
              · rw [if_neg hxz, if_neg hzx] at h2 ⊢
                exact ih u v h1 h2

/-- On keys of equal length, incomparability implies equality. -/
theorem keyLess_conn (a : Buf) : ∀ b : Buf, a.length = b.length →
    keyLess a b = false → keyLess b a = false → a = b := by
  induction a with
  | nil =>
    intro b hlen _ _
    cases b with
    | nil => rfl
    | cons y u => simp at hlen
  | cons x t ih =>
    intro b hlen h1 h2
    cases b with
    | nil => simp at hlen
    | cons y u =>
      simp only [keyLess] at h1 h2
      by_cases hxy : x < y
      · rw [if_pos hxy] at h1
        simp at h1
      · by_cases hyx : y < x
        · rw [if_pos hyx] at h2
          simp at h2
        · have hxe : x = y := by omega
          subst hxe
          rw [if_neg hxy, if_neg hxy] at h1 h2
          have ht : t = u := ih u (by simpa using hlen) h1 h2
          rw [ht]

/-! ## Insertion sort and duplicate removal -/

theorem insort_cons_eq (a b : Buf) (t : List Buf) :
    insort a (b :: t) =
      if keyLess b a = true then b :: insort a t else a :: b :: t := rfl

theorem insort_perm (a : Buf) (l : List Buf) : (insort a l).Perm (a :: l) := by
  induction l with
  | nil => exact List.Perm.refl _
  | cons b t ih =>
    rw [insort_cons_eq]
    by_cases hb : keyLess b a = true
    · rw [if_pos hb]
      exact (ih.cons b).trans (List.Perm.swap a b t)
    · rw [if_neg hb]

theorem insort_head_cases (a : Buf) (l : List Buf) :
    insort a l = a :: l ∨
      ∃ b t, l = b :: t ∧ insort a l = b :: insort a t := by
  cases l with
  | nil => exact Or.inl rfl
  | cons b t =>
    rw [insort_cons_eq]
    by_cases hb : keyLess b a = true
    · rw [if_pos hb]
      exact Or.inr ⟨b, t, rfl, rfl⟩
    · rw [if_neg hb]
      exact Or.inl rfl

theorem insort_chain (a : Buf) (l : List Buf)
    (hl : List.Chain' (fun x y => keyLess y x = false) l) :
    List.Chain' (fun x y => keyLess y x = false) (insort a l) := by
  induction l with
  | nil => simp [insort]
  | cons b t ih =>
    rw [insort_cons_eq]
    by_cases hb : keyLess b a = true
    · rw [if_pos hb]
      have htail : List.Chain' (fun x y => keyLess y x = false) t := hl.tail
      have hins := ih htail
      rcases insort_head_cases a t with hcase | ⟨c, t', rfl, hcase⟩
      · rw [hcase]
        exact List.Chain'.cons (keyLess_asymm b a hb) (hcase ▸ hins)
      · rw [hcase]
        refine List.Chain'.cons ?_ (hcase ▸ hins)
        exact List.chain'_cons.mp hl |>.1
    · rw [if_neg hb]
      exact List.Chain'.cons (by simpa using hb) hl

theorem insSort_perm (l : List Buf) : (insSort l).Perm l := by
  induction l with
  | nil => exact List.Perm.refl _
  | cons a t ih =>
    have : insSort (a :: t) = insort a (insSort t) := rfl
    rw [this]
    exact (insort_perm a (insSort t)).trans (ih.cons a)

theorem insSort_chain (l : List Buf) :
    List.Chain' (fun x y => keyLess y x = false) (insSort l) := by
  induction l with
  | nil => simp [insSort]
  | cons a t ih => exact insort_chain a (insSort t) ih

theorem mem_dedup1 : ∀ (l : List Buf) (x : Buf), x ∈ dedup1 l ↔ x ∈ l
  | [], x => by simp [dedup1]
  | [a], x => by simp [dedup1]
  | a :: b :: t, x => by
    unfold dedup1
    by_cases hab : a = b
    · rw [if_pos hab]
      rw [mem_dedup1 (b :: t) x]
      subst hab
      simp
    · rw [if_neg hab]
      simp only [List.mem_cons]
      rw [mem_dedup1 (b :: t) x]
      simp

theorem dedup1_length_le : ∀ l : List Buf, (dedup1 l).length ≤ l.length
  | [] => by simp [dedup1]
  | [a] => by simp [dedup1]
  | a :: b :: t => by
    unfold dedup1
    by_cases hab : a = b
    · rw [if_pos hab]
      have := dedup1_length_le (b :: t)
      simp at this ⊢
      omega
    · rw [if_neg hab]
      have := dedup1_length_le (b :: t)
      simp at this ⊢
      omega

theorem dedup1_head : ∀ (b : Buf) (t : List Buf),
    ∃ t', dedup1 (b :: t) = b :: t'
  | b, [] => ⟨[], rfl⟩
  | b, c :: t => by
    unfold dedup1
    by_cases hbc : b = c
    · rw [if_pos hbc]
      obtain ⟨t', ht⟩ := dedup1_head c t
      exact ⟨t', by rw [ht, hbc]⟩
    · rw [if_neg hbc]
      exact ⟨dedup1 (c :: t), rfl⟩

/-- Removing consecutive duplicates from a weakly sorted key list of
8-byte keys yields a strictly sorted list. -/
theorem dedup1_chain : ∀ l : List Buf, (∀ x ∈ l, x.length = 8) →
    List.Chain' (fun x y => keyLess y x = false) l →
    List.Chain' (fun x y => keyLess x y = true) (dedup1 l)
  | [], _, _ => by simp [dedup1]
  | [a], _, _ => by simp [dedup1]
  | a :: b :: t, hlen, hl => by
    unfold dedup1
    have htail : List.Chain' (fun x y => keyLess y x = false) (b :: t) := hl.tail
    have hlentail : ∀ x ∈ b :: t, x.length = 8 := fun x hx => hlen x (by simp [hx])
    by_cases hab : a = b
    · rw [if_pos hab]
      exact dedup1_chain (b :: t) hlentail htail
    · rw [if_neg hab]
      obtain ⟨t', ht'⟩ := dedup1_head b t
      rw [ht']
      refine List.Chain'.cons ?_ (ht' ▸ dedup1_chain (b :: t) hlentail htail)
      have hR : keyLess b a = false := (List.chain'_cons.mp hl).1
      by_cases hba : keyLess a b = true
      · exact hba
      · exact absurd (keyLess_conn a b
          (by rw [hlen a (by simp), hlen b (by simp)])
          (by simpa using hba) hR) hab

/-! ## Byte-level facts about `sparseSort` -/

theorem chunksN_succ (n : Nat) (l : Buf) :
    chunksN (n + 1) l = l.take 8 :: chunksN n (l.drop 8) := rfl

theorem chunksN_length : ∀ (n : Nat) (l : Buf), (chunksN n l).length = n
  | 0, _ => rfl
  | n + 1, l => by
    unfold chunksN
    simp [chunksN_length n]

theorem chunksN_mem_length : ∀ (n : Nat) (l : Buf), 8 * n ≤ l.length →
    ∀ k ∈ chunksN n l, k.length = 8
  | 0, _, _ => by simp [chunksN]
  | n + 1, l, hb => by
    unfold chunksN
    intro k hk
    rcases List.mem_cons.mp hk with rfl | hk
    · rw [List.length_take]
      omega
    · exact chunksN_mem_length n (l.drop 8) (by rw [List.length_drop]; omega) k hk

theorem chunksN_mem_wf : ∀ (n : Nat) (l : Buf), Wf l →
    ∀ k ∈ chunksN n l, Wf k
  | 0, _, _ => by simp [chunksN]
  | n + 1, l, hw => by
    unfold chunksN
    intro k hk
    rcases List.mem_cons.mp hk with rfl | hk
    · exact fun x hx => hw x (List.mem_of_mem_take hx)
    · exact chunksN_mem_wf n (l.drop 8) (fun x hx => hw x (List.mem_of_mem_drop hx))
        k hk

theorem flatten_length_eight : ∀ L : List Buf, (∀ k ∈ L, k.length = 8) →
    L.flatten.length = 8 * L.length
  | [], _ => rfl
  | k :: L, hk => by
    rw [List.flatten_cons, List.length_append, hk k (by simp),
      flatten_length_eight L (fun x hx => hk x (by simp [hx]))]
    simp
    ring

theorem chunksN_flatten : ∀ (L : List Buf) (rest : Buf),
    (∀ k ∈ L, k.length = 8) → chunksN L.length (L.flatten ++ rest) = L
  | [], rest, _ => rfl
  | k :: L, rest, hk => by
    have hklen : k.length = 8 := hk k (by simp)
    rw [List.length_cons, chunksN_succ]
    rw [List.flatten_cons, List.append_assoc,
      List.take_append_of_le_length (by omega), List.drop_append_of_le_length (by omega)]
    have ht : k.take 8 = k := List.take_of_length_le (by omega)
    have hd : k.drop 8 = [] := List.drop_eq_nil_of_le (by omega)
    rw [ht, hd, List.nil_append,
      chunksN_flatten L rest (fun x hx => hk x (by simp [hx]))]

theorem keysOf_length (s : Buf) : (keysOf s).length = sSize s :=
  chunksN_length _ _

theorem keysOf_mem_length (s : Buf) (hb : 8 + 8 * sSize s ≤ s.length) :
    ∀ k ∈ keysOf s, k.length = 8 :=
  chunksN_mem_length _ _ (by rw [List.length_drop]; omega)

theorem keysOf_mem_wf (s : Buf) (hw : Wf s) : ∀ k ∈ keysOf s, Wf k :=
  chunksN_mem_wf _ _ (fun x hx => hw x (List.mem_of_mem_drop hx))

theorem beU32bytes_length (v : Nat) : (beU32bytes v).length = 4 := rfl

theorem sSetSize_length (s : Buf) (sz : Nat) (h4 : 4 ≤ s.length) :
    (sSetSize s sz).length = s.length :=
  wr_length s 0 (beU32bytes sz) (by rw [beU32bytes_length]; omega)

theorem byteAt_sSetSize_lt (s : Buf) (sz i : Nat) (hi : i < 4)
    (h4 : 4 ≤ s.length) :
    byteAt (sSetSize s sz) i = byteAt (beU32bytes sz) i := by
  unfold sSetSize
  rw [byteAt_wr_mid s 0 _ i (by omega) (by rw [beU32bytes_length]; omega) (by omega)]
  simp

theorem byteAt_sSetSize_ge (s : Buf) (sz i : Nat) (hi : 4 ≤ i)
    (h4 : 4 ≤ s.length) :
    byteAt (sSetSize s sz) i = byteAt s i := by
  unfold sSetSize
  rw [byteAt_wr_right s 0 _ i (by rw [beU32bytes_length]; omega)
    (by rw [beU32bytes_length]; omega)]

theorem sSize_sSetSize (s : Buf) (sz : Nat) (h4 : 4 ≤ s.length) :
    sSize (sSetSize s sz) = sz % 2 ^ 31 := by
  unfold sSize
  have c0 : byteAt (sSetSize s sz) 0 = (sz >>> 24) &&& 255 :=
    byteAt_sSetSize_lt s sz 0 (by omega) h4
  have c1 : byteAt (sSetSize s sz) 1 = (sz >>> 16) &&& 255 :=
    byteAt_sSetSize_lt s sz 1 (by omega) h4
  have c2 : byteAt (sSetSize s sz) 2 = (sz >>> 8) &&& 255 :=
    byteAt_sSetSize_lt s sz 2 (by omega) h4
  have c3 : byteAt (sSetSize s sz) 3 = sz &&& 255 :=
    byteAt_sSetSize_lt s sz 3 (by omega) h4
  rw [beU32_eq_sum _ (by rw [c1, and_255_eq_mod]; omega)
    (by rw [c2, and_255_eq_mod]; omega) (by rw [c3, and_255_eq_mod]; omega)]
  rw [c0, c1, c2, c3, and_mask_eq_mod]
  simp only [and_255_eq_mod, shiftRight_eq_div]
  norm_num
  omega

theorem ded_length_le (s : Buf) :
    (dedup1 (insSort (keysOf s))).length ≤ sSize s := by
  calc (dedup1 (insSort (keysOf s))).length
      ≤ (insSort (keysOf s)).length := dedup1_length_le _
    _ = (keysOf s).length := (insSort_perm _).length_eq
    _ = sSize s := keysOf_length s

theorem ded_mem_length (s : Buf) (hb : 8 + 8 * sSize s ≤ s.length) :
    ∀ k ∈ dedup1 (insSort (keysOf s)), k.length = 8 :=
  fun k hk => keysOf_mem_length s hb k
    ((insSort_perm (keysOf s)).mem_iff.mp ((mem_dedup1 _ k).mp hk))

theorem ded_mem_wf (s : Buf) (hw : Wf s) :
    ∀ k ∈ dedup1 (insSort (keysOf s)), Wf k :=
  fun k hk => keysOf_mem_wf s hw k
    ((insSort_perm (keysOf s)).mem_iff.mp ((mem_dedup1 _ k).mp hk))

theorem sparseSort_eq (s : Buf) :
    sparseSort s = sSetSize
      (wr s 8 ((dedup1 (insSort (keysOf s))).flatten ++
        zeros (8 * sSize s - 8 * (dedup1 (insSort (keysOf s))).length)))
      (dedup1 (insSort (keysOf s))).length := rfl

theorem sparseSort_payload_length (s : Buf) (hb : 8 + 8 * sSize s ≤ s.length) :
    ((dedup1 (insSort (keysOf s))).flatten ++
      zeros (8 * sSize s - 8 * (dedup1 (insSort (keysOf s))).length)).length =
      8 * sSize s := by
  rw [List.length_append, flatten_length_eight _ (ded_mem_length s hb), zeros_length]
  have := ded_length_le s
  omega

theorem sparseSort_length (s : Buf) (hb : 8 + 8 * sSize s ≤ s.length) :
    (sparseSort s).length = s.length := by
  rw [sparseSort_eq, sSetSize_length, wr_length]
  · rw [sparseSort_payload_length s hb]; omega
  · rw [wr_length]
    · omega
    · rw [sparseSort_payload_length s hb]; omega

theorem drop8_sSetSize (x : Buf) (d : Nat) :
    (sSetSize x d).drop 8 = x.drop 8 := by
  unfold sSetSize wr
  rw [List.take_zero, List.nil_append]
  have h8 : (8 : Nat) = (beU32bytes d).length + 4 := by rw [beU32bytes_length]
  rw [h8, List.drop_append, List.drop_drop]
  norm_num

theorem wr8_drop8 (s payload : Buf) (hp : 8 + payload.length ≤ s.length) :
    (wr s 8 payload).drop 8 = payload ++ s.drop (8 + payload.length) := by
  unfold wr
  rw [List.append_assoc, List.drop_left' (by rw [List.length_take]; omega)]

theorem sSize_sparseSort (s : Buf) (hb : 8 + 8 * sSize s ≤ s.length)
    (h27 : s.length < 2 ^ 27) :
    sSize (sparseSort s) = (dedup1 (insSort (keysOf s))).length := by
  rw [sparseSort_eq, sSize_sSetSize]
  · have h1 := ded_length_le s
    have h2 : sSize s < 2 ^ 24 := by omega
    omega
  · rw [wr_length]
    · omega
    · rw [sparseSort_payload_length s hb]
      omega

theorem sparseSort_drop8 (s : Buf) (hb : 8 + 8 * sSize s ≤ s.length) :
    (sparseSort s).drop 8 =
      (dedup1 (insSort (keysOf s))).flatten ++
        (zeros (8 * sSize s - 8 * (dedup1 (insSort (keysOf s))).length) ++
          s.drop (8 + 8 * sSize s)) := by
  rw [sparseSort_eq, drop8_sSetSize, wr8_drop8]
  · rw [List.append_assoc, sparseSort_payload_length s hb]
  · rw [sparseSort_payload_length s hb]
    omega

theorem keysOf_sparseSort (s : Buf)
    (hb : 8 + 8 * sSize s ≤ s.length) (h27 : s.length < 2 ^ 27) :
    keysOf (sparseSort s) = dedup1 (insSort (keysOf s)) := by
  have hk : keysOf (sparseSort s) =
      chunksN (sSize (sparseSort s)) ((sparseSort s).drop 8) := rfl
  rw [hk, sSize_sparseSort s hb h27, sparseSort_drop8 s hb]
  exact chunksN_flatten _ _ (ded_mem_length s hb)

theorem byteAt0_sparseSort (s : Buf) (hb : 8 + 8 * sSize s ≤ s.length)
    (h27 : s.length < 2 ^ 27) :
    byteAt (sparseSort s) 0 = 0 := by
  rw [sparseSort_eq, byteAt_sSetSize_lt _ _ 0 (by omega)]
  · simp only [beU32bytes, byteAt_cons_zero]
    have h1 := ded_length_le s
    have h2 : sSize s < 2 ^ 24 := by omega
    rw [shiftRight_eq_div, and_255_eq_mod]
    have : (dedup1 (insSort (keysOf s))).length / 2 ^ 24 = 0 := by omega
    rw [this]
  · rw [wr_length]
    · omega
    · rw [sparseSort_payload_length s hb]
      omega

theorem sDirty_sparseSort (s : Buf) (hb : 8 + 8 * sSize s ≤ s.length)
    (h27 : s.length < 2 ^ 27) :
    sDirty (sparseSort s) = false := by
  unfold sDirty
  rw [byteAt0_sparseSort s hb h27]
  decide

theorem mode_sparseSort (s : Buf) (hb : 8 + 8 * sSize s ≤ s.length)
    (h27 : s.length < 2 ^ 27) :
    byteAt (sparseSort s) 0 &&& 64 = 0 := by
  rw [byteAt0_sparseSort s hb h27]
  decide

theorem getElem_eq_byteAt (l : Buf) (i : Nat) (h : i < l.length) :
    l[i] = byteAt l i := by
  unfold byteAt
  rw [List.getD_eq_getElem?_getD, List.getElem?_eq_getElem h]
  rfl

theorem eq_zeros_of_byteAt (l : Buf) (hz : ∀ i < l.length, byteAt l i = 0) :
    l = zeros l.length := by
  unfold zeros
  rw [List.eq_replicate_iff]
  refine ⟨rfl, ?_⟩
  intro b hb
  obtain ⟨i, hil, rfl⟩ := List.mem_iff_getElem.mp hb
  rw [getElem_eq_byteAt l i hil]
  exact hz i hil

theorem byteAt_append_right (l1 l2 : Buf) (k : Nat) :
    byteAt (l1 ++ l2) (l1.length + k) = byteAt l2 k := by
  unfold byteAt
  rw [List.getD_eq_getElem?_getD, List.getD_eq_getElem?_getD,
    List.getElem?_append_right (Nat.le_add_right _ _)]
  simp

theorem byteAt_append_left (l1 l2 : Buf) (k : Nat) (hk : k < l1.length) :
    byteAt (l1 ++ l2) k = byteAt l1 k := by
  unfold byteAt
  rw [List.getD_eq_getElem?_getD, List.getD_eq_getElem?_getD,
    List.getElem?_append_left hk]

theorem sparseSort_tail_zeros (s : Buf) (hb : 8 + 8 * sSize s ≤ s.length)
    (h27 : s.length < 2 ^ 27) :
    rd (sparseSort s) (8 + 8 * sSize (sparseSort s))
        (8 * sSize s - 8 * sSize (sparseSort s)) =
      zeros (8 * sSize s - 8 * sSize (sparseSort s)) := by
  have hD := sSize_sparseSort s hb h27
  have hlen := sparseSort_length s hb
  have hdle := ded_length_le s
  have hflat : (dedup1 (insSort (keysOf s))).flatten.length =
      8 * (dedup1 (insSort (keysOf s))).length :=
    flatten_length_eight _ (ded_mem_length s hb)
  have hk : ∀ i < 8 * sSize s - 8 * sSize (sparseSort s),
      byteAt (rd (sparseSort s) (8 + 8 * sSize (sparseSort s))
        (8 * sSize s - 8 * sSize (sparseSort s))) i = 0 := by
    intro i hi
    rw [byteAt_rd _ _ _ i hi (by rw [hlen]; omega)]
    have he : 8 + 8 * sSize (sparseSort s) + i =
        8 + (8 * sSize (sparseSort s) + i) := by omega
    rw [he, ← byteAt_drop, sparseSort_drop8 s hb]
    have he2 : 8 * sSize (sparseSort s) + i =
        (dedup1 (insSort (keysOf s))).flatten.length + i := by
      rw [hflat, hD]
    rw [he2, byteAt_append_right]
    rw [byteAt_append_left _ _ i (by rw [zeros_length]; omega)]
    exact byteAt_zeros _ i
  have hrl : (rd (sparseSort s) (8 + 8 * sSize (sparseSort s))
      (8 * sSize s - 8 * sSize (sparseSort s))).length =
      8 * sSize s - 8 * sSize (sparseSort s) := by
    apply rd_length
    rw [hlen, hD]
    omega
  have := eq_zeros_of_byteAt _ (by rw [hrl]; exact hk)
  rw [hrl] at this
  exact this

theorem storedHashes_sparseSort_mem (s : Buf)
    (hb : 8 + 8 * sSize s ≤ s.length) (h27 : s.length < 2 ^ 27) :
    ∀ x, x ∈ storedHashes (sparseSort s) ↔ x ∈ storedHashes s := by
  intro x
  unfold storedHashes
  rw [keysOf_sparseSort s hb h27]
  simp only [List.mem_map]
  constructor
  · rintro ⟨k, hk, rfl⟩
    exact ⟨k, (insSort_perm (keysOf s)).mem_iff.mp ((mem_dedup1 _ k).mp hk), rfl⟩
  · rintro ⟨k, hk, rfl⟩
    exact ⟨k, (mem_dedup1 _ k).mpr ((insSort_perm (keysOf s)).mem_iff.mpr hk), rfl⟩

theorem keys_strict_chain (s : Buf) (hb : 8 + 8 * sSize s ≤ s.length) :
    List.Chain' (fun a b => keyLess a b = true)
      (dedup1 (insSort (keysOf s))) := by
  apply dedup1_chain
  · intro x hx
    exact keysOf_mem_length s hb x ((insSort_perm (keysOf s)).mem_iff.mp hx)
  · exact insSort_chain (keysOf s)

theorem ded_nodup (s : Buf) (hb : 8 + 8 * sSize s ≤ s.length) :
    (dedup1 (insSort (keysOf s))).Nodup := by
  have hchain := keys_strict_chain s hb
  have htr : IsTrans Buf (fun a b => keyLess a b = true) :=
    ⟨fun a b c => keyLess_trans a b c⟩
  have hpair := (@List.chain'_iff_pairwise Buf _ htr _).mp hchain
  exact hpair.imp (fun {a b} hS he => by
    subst he
    rw [keyLess_irrefl a] at hS
    simp at hS)

theorem storedHashes_sparseSort_nodup (s : Buf) (hw : Wf s)
    (hb : 8 + 8 * sSize s ≤ s.length) (h27 : s.length < 2 ^ 27) :
    (storedHashes (sparseSort s)).Nodup := by
  unfold storedHashes
  rw [keysOf_sparseSort s hb h27]
  apply List.Nodup.map_on _ (ded_nodup s hb)
  intro x hx y hy he
  have hxk := (insSort_perm (keysOf s)).mem_iff.mp ((mem_dedup1 _ x).mp hx)
  have hyk := (insSort_perm (keysOf s)).mem_iff.mp ((mem_dedup1 _ y).mp hy)
  calc x = leU64bytes (leBytes x) :=
        (leU64bytes_leBytes x (keysOf_mem_length s hb x hxk)
          (keysOf_mem_wf s hw x hxk)).symm
    _ = leU64bytes (leBytes y) := by rw [he]
    _ = y := leU64bytes_leBytes y (keysOf_mem_length s hb y hyk)
          (keysOf_mem_wf s hw y hyk)

theorem storedHashes_length (s : Buf) :
    (storedHashes s).length = sSize s := by
  unfold storedHashes
  rw [List.length_map, keysOf_length]

/-- C6 amended: after the compact-dedup sort of a dirty sparse buffer, the
stored keys are strictly ascending in the byte-wise order the code
compares with (lexicographic on the stored little-endian byte sequences,
not unsigned 64-bit numeric order), the stored hashes are unique, the
stored count equals the number of remaining hashes, the freed trailing
bytes are zero, and the dirty flag is clear. -/
theorem c6_sort_spec (s : Buf) (hw : Wf s) (_hd : sDirty s = true)
    (hb : 8 + 8 * sSize s ≤ s.length) (h27 : s.length < 2 ^ 27) :
    List.Chain' (fun a b => keyLess a b = true) (keysOf (sparseSort s)) ∧
    (storedHashes (sparseSort s)).Nodup ∧
    (storedHashes (sparseSort s)).length = sSize (sparseSort s) ∧
    sDirty (sparseSort s) = false ∧
    rd (sparseSort s) (8 + 8 * sSize (sparseSort s))
        (8 * sSize s - 8 * sSize (sparseSort s)) =
      zeros (8 * sSize s - 8 * sSize (sparseSort s)) := by
  refine ⟨?_, ?_, ?_, ?_, ?_⟩
  · rw [keysOf_sparseSort s hb h27]
    exact keys_strict_chain s hb
  · exact storedHashes_sparseSort_nodup s hw hb h27
  · exact storedHashes_length _
  · exact sDirty_sparseSort s hb h27
  · exact sparseSort_tail_zeros s hb h27

/-- Witness for C6 at the dirty buffer holding `{1, 256}`. -/
theorem c6_sort_spec_witness :
    List.Chain' (fun a b => keyLess a b = true)
      (keysOf (sparseSort (hllAdd (hllAdd (zeros 32) 1) 256))) ∧
    (storedHashes (sparseSort (hllAdd (hllAdd (zeros 32) 1) 256))).Nodup ∧
    (storedHashes (sparseSort (hllAdd (hllAdd (zeros 32) 1) 256))).length =
      sSize (sparseSort (hllAdd (hllAdd (zeros 32) 1) 256)) ∧
    sDirty (sparseSort (hllAdd (hllAdd (zeros 32) 1) 256)) = false ∧
    rd (sparseSort (hllAdd (hllAdd (zeros 32) 1) 256))
        (8 + 8 * sSize (sparseSort (hllAdd (hllAdd (zeros 32) 1) 256)))
        (8 * sSize (hllAdd (hllAdd (zeros 32) 1) 256) -
          8 * sSize (sparseSort (hllAdd (hllAdd (zeros 32) 1) 256))) =
      zeros (8 * sSize (hllAdd (hllAdd (zeros 32) 1) 256) -
        8 * sSize (sparseSort (hllAdd (hllAdd (zeros 32) 1) 256))) :=
  c6_sort_spec (hllAdd (hllAdd (zeros 32) 1) 256) (by decide) (by decide)
    (by decide) (by decide)

/-- C4 amended: with capacity `floor(len/8) - 1` slots, an append that
would exceed capacity reports full immediately when the buffer is clean;
when dirty it sorts+dedups first, and the retried append proceeds if and
only if at most `capacity - 100` slots are used after dedup (count + 100 <
floor(len/8), i.e. "fewer than capacity - 99", one more than the claimed
"fewer than capacity - 100"); otherwise the sorted buffer is returned with
"full". -/
theorem c4_full_add_behavior (s : Buf) (hash : Nat)
    (hfull : ¬ (sSize s + 1 < s.length >>> 3)) :
    (sDirty s = false → sparseAdd s hash = (s, AddResult.full)) ∧
    (sDirty s = true →
      ((sparseAdd s hash).2 = AddResult.ok ↔
        sSize (sparseSort s) + 100 < s.length >>> 3)) ∧
    (sDirty s = true → ¬ (sSize (sparseSort s) + 100 < s.length >>> 3) →
      sparseAdd s hash = (sparseSort s, AddResult.full)) := by
  simp only [sparseAdd]
  rw [if_neg hfull]
  refine ⟨?_, ?_, ?_⟩
  · intro hc
    rw [if_pos hc]
  · intro hdt
    rw [if_neg (by simp [hdt])]
    by_cases hcap : sSize (sparseSort s) + 100 < s.length >>> 3
    · rw [if_pos hcap]
      simp [hcap]
    · rw [if_neg hcap]
      simp [hcap]
  · intro hdt hcap
    rw [if_neg (by simp [hdt]), if_neg hcap]

/-- Witness for C4 (amended) at a clean one-element buffer of length 20,
whose capacity of one slot is exhausted. -/
theorem c4_full_add_behavior_witness :
    (sDirty (([0, 0, 0, 1] : Buf) ++ zeros 16) = false →
      sparseAdd (([0, 0, 0, 1] : Buf) ++ zeros 16) 9 =
        ((([0, 0, 0, 1] : Buf) ++ zeros 16), AddResult.full)) ∧
    (sDirty (([0, 0, 0, 1] : Buf) ++ zeros 16) = true →
      ((sparseAdd (([0, 0, 0, 1] : Buf) ++ zeros 16) 9).2 = AddResult.ok ↔
        sSize (sparseSort (([0, 0, 0, 1] : Buf) ++ zeros 16)) + 100 <
          (([0, 0, 0, 1] : Buf) ++ zeros 16).length >>> 3)) ∧
    (sDirty (([0, 0, 0, 1] : Buf) ++ zeros 16) = true →
      ¬ (sSize (sparseSort (([0, 0, 0, 1] : Buf) ++ zeros 16)) + 100 <
          (([0, 0, 0, 1] : Buf) ++ zeros 16).length >>> 3) →
      sparseAdd (([0, 0, 0, 1] : Buf) ++ zeros 16) 9 =
        (sparseSort (([0, 0, 0, 1] : Buf) ++ zeros 16), AddResult.full)) :=
  c4_full_add_behavior (([0, 0, 0, 1] : Buf) ++ zeros 16) 9 (by decide)

set_option maxRecDepth 100000 in
/-- C4 counterexample: a dirty sparse buffer of length 1544 (capacity 192)
holding 192 stored hashes that dedup to exactly 92 = capacity - 100
distinct ones.  The claim says the retried append proceeds only when fewer
than capacity - 100 slots are used after dedup, hence predicts "full";
the code's test `92 + 100 < 193` passes and the append proceeds. -/
theorem c4_slack_boundary :
    sDirty (([128, 0, 0, 192, 0, 0, 0, 0] : Buf) ++
      ((List.replicate 101 0 ++ (List.range 91).map (fun i => i + 1)).map
        leU64bytes).flatten) = true ∧
    ¬ (sSize (([128, 0, 0, 192, 0, 0, 0, 0] : Buf) ++
      ((List.replicate 101 0 ++ (List.range 91).map (fun i => i + 1)).map
        leU64bytes).flatten) + 1 <
      (([128, 0, 0, 192, 0, 0, 0, 0] : Buf) ++
      ((List.replicate 101 0 ++ (List.range 91).map (fun i => i + 1)).map
        leU64bytes).flatten).length >>> 3) ∧
    sSize (sparseSort (([128, 0, 0, 192, 0, 0, 0, 0] : Buf) ++
      ((List.replicate 101 0 ++ (List.range 91).map (fun i => i + 1)).map
        leU64bytes).flatten)) + 100 + 1 =
      (([128, 0, 0, 192, 0, 0, 0, 0] : Buf) ++
      ((List.replicate 101 0 ++ (List.range 91).map (fun i => i + 1)).map
        leU64bytes).flatten).length >>> 3 ∧
    (sparseAdd (([128, 0, 0, 192, 0, 0, 0, 0] : Buf) ++
      ((List.replicate 101 0 ++ (List.range 91).map (fun i => i + 1)).map
        leU64bytes).flatten) 500).2 = AddResult.ok := by
  decide

/-- Witness for C7 (amended) at a concrete dense buffer. -/
theorem c7_dense_mode_sticky_witness :
    hllIsSparse (hllAdd (192 :: zeros 19) 5) = false ∧
    hllIsSparse ((hllMerge (192 :: zeros 19) (zeros 20)).1) = false ∧
    hllIsSparse ((hllEstimateC (fun _ => 0) (192 :: zeros 19)).2.1) = false :=
  c7_dense_mode_sticky (192 :: zeros 19) (zeros 20) 5 (fun _ => 0) (by decide)

/-! ## Facade add on sparse buffers: the exact-counting invariant -/

theorem beU32bytes_wf (v : Nat) : Wf (beU32bytes v) := by
  intro x hx
  simp only [beU32bytes, List.mem_cons, List.not_mem_nil, or_false] at hx
  rcases hx with h | h | h | h <;> (subst h; rw [and_255_eq_mod]; omega)

theorem zeros_wf (n : Nat) : Wf (zeros n) := by
  intro x hx
  unfold zeros at hx
  rw [List.eq_of_mem_replicate hx]
  omega

theorem wf_wr (b : Buf) (off : Nat) (bs : Buf) (hb : Wf b) (hbs : Wf bs) :
    Wf (wr b off bs) := by
  intro x hx
  unfold wr at hx
  rcases List.mem_append.mp hx with hx | hx
  · rcases List.mem_append.mp hx with hx | hx
    · exact hb x (List.mem_of_mem_take hx)
    · exact hbs x hx
  · exact hb x (List.mem_of_mem_drop hx)

theorem sSetSize_wf (s : Buf) (sz : Nat) (hw : Wf s) : Wf (sSetSize s sz) :=
  wf_wr s 0 (beU32bytes sz) hw (beU32bytes_wf sz)

theorem flatten_wf (L : List Buf) (h : ∀ k ∈ L, Wf k) : Wf L.flatten := by
  intro x hx
  obtain ⟨k, hk, hxk⟩ := List.mem_flatten.mp hx
  exact h k hk x hxk

theorem append_wf (a b : Buf) (ha : Wf a) (hb : Wf b) : Wf (a ++ b) := by
  intro x hx
  rcases List.mem_append.mp hx with hx | hx
  · exact ha x hx
  · exact hb x hx

theorem sparseSort_wf (s : Buf) (hw : Wf s) : Wf (sparseSort s) := by
  rw [sparseSort_eq]
  apply sSetSize_wf
  apply wf_wr s 8 _ hw
  exact append_wf _ _ (flatten_wf _ (ded_mem_wf s hw)) (zeros_wf _)

theorem denseAdd_length (h : Buf) (x : Nat) :
    (denseAdd h x).1.length = h.length := by
  simp only [denseAdd]
  split
  · split <;> simp
  · split <;> simp

theorem high_xor_lt (b t : Nat) (hb : b < 256) (ht : t < 4) :
    (b &&& 252) ^^^ t < 256 := by
  rw [high_xor b t hb ht]
  omega

theorem low_or_lt (b v : Nat) (hv : v < 64) :
    (b &&& 3) ||| (v <<< 2) < 256 := by
  rw [low_or_shift]
  omega

theorem denseAdd_wf (h : Buf) (x : Nat) (hw : Wf h) : Wf (denseAdd h x).1 := by
  have hrho : rho64 x < 64 := by
    unfold rho64
    omega
  simp only [denseAdd]
  split
  · split
    · intro y hy
      rcases List.mem_or_eq_of_mem_set hy with hy | hy
      · exact hw y hy
      · subst hy
        exact low_or_lt _ _ hrho
    · exact hw
  · split
    · exact hw
    · intro y hy
      rcases List.mem_or_eq_of_mem_set hy with hy | hy
      · rcases List.mem_or_eq_of_mem_set hy with hy | hy
        · rcases List.mem_or_eq_of_mem_set hy with hy | hy
          · exact hw y hy
          · subst hy
            exact high_xor_lt _ _ (wf_byteAt h hw _) (by rw [shiftr4_eq_div]; omega)
        · subst hy
          exact high_xor_lt _ _ (wf_byteAt h hw _)
            (by rw [shiftr2_eq_div, and_3_eq_mod]; omega)
      · subst hy
        exact high_xor_lt _ _ (wf_byteAt h hw _) (by rw [and_3_eq_mod]; omega)

theorem mergeIntoDense_length (d : Buf) (s : Buf) :
    (mergeIntoDense d s).length = d.length := by
  unfold mergeIntoDense
  generalize storedHashes s = l
  induction l generalizing d with
  | nil => rfl
  | cons x t ih =>
    rw [List.foldl_cons, ih, denseAdd_length]

theorem drop8_wr (b : Buf) (off : Nat) (bs : Buf) (hoff : 8 ≤ off)
    (hb : off + bs.length ≤ b.length) :
    (wr b off bs).drop 8 = wr (b.drop 8) (off - 8) bs := by
  unfold wr
  rw [List.append_assoc,
    List.drop_append_of_le_length (by rw [List.length_take]; omega),
    List.drop_take, List.drop_drop]
  have h3 : 8 + (off - 8 + bs.length) = off + bs.length := by omega
  rw [h3, List.append_assoc]

theorem take8_wr (b : Buf) (off : Nat) (bs : Buf) (hoff : 8 ≤ off)
    (hb : off ≤ b.length) :
    (wr b off bs).take 8 = b.take 8 := by
  unfold wr
  rw [List.append_assoc,
    List.take_append_of_le_length (by rw [List.length_take]; omega),
    List.take_take]
  have : min 8 off = 8 := by omega
  rw [this]

theorem chunksN_wr_append : ∀ (n : Nat) (t : Buf) (k : Buf), k.length = 8 →
    8 * n + 8 ≤ t.length →
    chunksN (n + 1) (wr t (8 * n) k) = chunksN n t ++ [k]
  | 0, t, k, hk, hb => by
    unfold wr chunksN
    simp only [Nat.mul_zero, List.take_zero, List.nil_append, Nat.zero_add]
    rw [List.take_append_of_le_length (by omega),
      List.take_of_length_le (by omega)]
    rfl
  | n + 1, t, k, hk, hb => by
    have hd : (wr t (8 * (n + 1)) k).drop 8 = wr (t.drop 8) (8 * n) k := by
      rw [drop8_wr t _ k (by omega) (by omega)]
      have h8 : 8 * (n + 1) - 8 = 8 * n := by omega
      rw [h8]
    have hL := chunksN_succ (n + 1) (wr t (8 * (n + 1)) k)
    rw [hL, take8_wr t _ k (by omega) (by omega), hd,
      chunksN_wr_append n (t.drop 8) k hk (by rw [List.length_drop]; omega),
      chunksN_succ]
    rfl

theorem or_two_pow_31 (m : Nat) (hm : m < 2 ^ 31) : m ||| 2 ^ 31 = 2 ^ 31 + m := by
  rw [Nat.lor_comm]
  have h1 : (2 ^ 31 : Nat) = 2 ^ 31 * 1 := by ring
  rw [h1, or_eq_add_of_disjoint 1 m 31 hm]

theorem keysOf_append_state (x : Buf) (hash : Nat)
    (hroom : 8 * (sSize x + 1) + 8 ≤ x.length) (h24 : sSize x + 1 < 2 ^ 24) :
    keysOf (sSetSize (wr x ((sSize x + 1) <<< 3) (leU64bytes hash))
        ((sSize x + 1) ||| 2 ^ 31)) =
      keysOf x ++ [leU64bytes hash] := by
  have hsh : (sSize x + 1) <<< 3 = 8 * (sSize x + 1) := by
    rw [shiftLeft_eq_mul]
    ring
  have hwrlen : (wr x ((sSize x + 1) <<< 3) (leU64bytes hash)).length = x.length := by
    rw [wr_length]
    rw [hsh, leU64bytes_length]
    omega
  have hsz : sSize (sSetSize (wr x ((sSize x + 1) <<< 3) (leU64bytes hash))
      ((sSize x + 1) ||| 2 ^ 31)) = sSize x + 1 := by
    rw [sSize_sSetSize _ _ (by rw [hwrlen]; omega)]
    rw [or_two_pow_31 _ (by omega)]
    omega
  have hk : keysOf (sSetSize (wr x ((sSize x + 1) <<< 3) (leU64bytes hash))
      ((sSize x + 1) ||| 2 ^ 31)) =
      chunksN (sSize x + 1)
        ((sSetSize (wr x ((sSize x + 1) <<< 3) (leU64bytes hash))
          ((sSize x + 1) ||| 2 ^ 31)).drop 8) := by
    unfold keysOf
    rw [hsz]
  rw [hk, drop8_sSetSize]
  rw [hsh, drop8_wr x _ _ (by omega) (by rw [leU64bytes_length]; omega)]
  have h8 : 8 * (sSize x + 1) - 8 = 8 * sSize x := by omega
  rw [h8, chunksN_wr_append (sSize x) (x.drop 8) _ (leU64bytes_length hash)
    (by rw [List.length_drop]; omega)]
  rfl

theorem byte0_append_state (x : Buf) (hash : Nat)
    (hroom : 8 * (sSize x + 1) + 8 ≤ x.length) (h24 : sSize x + 1 < 2 ^ 24) :
    byteAt (sSetSize (wr x ((sSize x + 1) <<< 3) (leU64bytes hash))
        ((sSize x + 1) ||| 2 ^ 31)) 0 = 128 := by
  have hsh : (sSize x + 1) <<< 3 = 8 * (sSize x + 1) := by
    rw [shiftLeft_eq_mul]
    ring
  have hwrlen : (wr x ((sSize x + 1) <<< 3) (leU64bytes hash)).length = x.length := by
    rw [wr_length]
    rw [hsh, leU64bytes_length]
    omega
  rw [byteAt_sSetSize_lt _ _ 0 (by omega) (by rw [hwrlen]; omega)]
  simp only [beU32bytes, byteAt_cons_zero]
  rw [or_two_pow_31 _ (by omega), shiftRight_eq_div, and_255_eq_mod]
  omega

theorem storedHashes_append_state (x : Buf) (hash : Nat) (hhash : hash < 2 ^ 64)
    (hroom : 8 * (sSize x + 1) + 8 ≤ x.length) (h24 : sSize x + 1 < 2 ^ 24) :
    storedHashes (sSetSize (wr x ((sSize x + 1) <<< 3) (leU64bytes hash))
        ((sSize x + 1) ||| 2 ^ 31)) =
      storedHashes x ++ [hash] := by
  unfold storedHashes
  rw [keysOf_append_state x hash hroom h24, List.map_append]
  simp [leBytes_leU64bytes hash hhash]

theorem append_state_inv (L : Nat) (hL27 : L < 2 ^ 27) (processed : List Nat)
    (x : Buf) (hash : Nat) (hhash : hash < 2 ^ 64)
    (hlen : x.length = L) (hw : Wf x)
    (hmem : ∀ y, y ∈ storedHashes x ↔ y ∈ processed)
    (hroom : 8 * (sSize x + 1) + 8 ≤ L) :
    SparseInv L (processed ++ [hash])
      (sSetSize (wr x ((sSize x + 1) <<< 3) (leU64bytes hash))
        ((sSize x + 1) ||| 2 ^ 31)) := by
  have h24 : sSize x + 1 < 2 ^ 24 := by omega
  have hsh : (sSize x + 1) <<< 3 = 8 * (sSize x + 1) := by
    rw [shiftLeft_eq_mul]
    ring
  have hwrlen : (wr x ((sSize x + 1) <<< 3) (leU64bytes hash)).length = x.length := by
    rw [wr_length]
    rw [hsh, leU64bytes_length]
    omega
  have hsz : sSize (sSetSize (wr x ((sSize x + 1) <<< 3) (leU64bytes hash))
      ((sSize x + 1) ||| 2 ^ 31)) = sSize x + 1 := by
    rw [sSize_sSetSize _ _ (by rw [hwrlen]; omega)]
    rw [or_two_pow_31 _ (by omega)]
    omega
  have hb0 : byteAt (sSetSize (wr x ((sSize x + 1) <<< 3) (leU64bytes hash))
      ((sSize x + 1) ||| 2 ^ 31)) 0 = 128 :=
    byte0_append_state x hash (by omega) h24
  have hst := storedHashes_append_state x hash hhash (by omega) h24
  refine ⟨?_, ?_, ?_, ?_, ?_, ?_⟩
  · rw [sSetSize_length _ _ (by rw [hwrlen]; omega), hwrlen, hlen]
  · exact sSetSize_wf _ _ (wf_wr _ _ _ hw (leU64bytes_wf hash))
  · rw [hb0]
    decide
  · rw [hsz]
    omega
  · intro y
    rw [hst]
    rw [List.mem_append]
    simp only [List.mem_append, List.mem_singleton]
    rw [hmem y]
  · intro hclean
    exfalso
    unfold sDirty at hclean
    rw [hb0] at hclean
    simp at hclean

theorem toDense_facts (s : Buf) (h8 : 8 ≤ s.length) :
    byteAt (toDense s) 0 = 192 ∧ toDense s ≠ [] ∧
      (toDense s).length = s.length := by
  unfold toDense
  have htmp : (mergeIntoDense (zeros (s.length - 8)) s).length = s.length - 8 := by
    rw [mergeIntoDense_length, zeros_length]
  have hwrl : (wr s 8 (mergeIntoDense (zeros (s.length - 8)) s)).length = s.length := by
    rw [wr_length]
    rw [htmp]
    omega
  have hne : wr s 8 (mergeIntoDense (zeros (s.length - 8)) s) ≠ [] := by
    intro hcon
    rw [hcon] at hwrl
    simp at hwrl
    omega
  refine ⟨byteAt_set_zero _ _ hne, ?_, ?_⟩
  · intro hcon
    have hlen0 : ((wr s 8 (mergeIntoDense (zeros (s.length - 8)) s)).set 0 192).length
        = 0 := by
      rw [hcon]
      rfl
    rw [List.length_set, hwrl] at hlen0
    omega
  · rw [List.length_set, hwrl]

/-- The promotion path of the facade `add` produces a dense-mode buffer. -/
theorem hllAdd_promoted_mode (t : Buf) (hash : Nat)
    (ht0 : byteAt t 0 = 192) (htne : t ≠ []) :
    byteAt (rd t 0 8 ++ (denseAdd (t.drop 8) hash).1) 0 &&& 64 ≠ 0 := by
  rw [byteAt_head_append t _ htne, ht0]
  decide

/-- One facade `add` on a sparse buffer either promotes to dense or
re-establishes the invariant with the hash appended. -/
theorem hllAdd_step (L : Nat) (hL27 : L < 2 ^ 27) (hL20 : 20 ≤ L)
    (processed : List Nat) (s : Buf) (hash : Nat) (hhash : hash < 2 ^ 64)
    (hinv : SparseInv L processed s) :
    byteAt (hllAdd s hash) 0 &&& 64 ≠ 0 ∨
      SparseInv L (processed ++ [hash]) (hllAdd s hash) := by
  obtain ⟨hlen, hw, hmode, hbound, hmem, hclean⟩ := hinv
  have hmode' : ¬ (byteAt s 0 &&& 64 ≠ 0) := by simp [hmode]
  have hdiv : s.length >>> 3 = s.length / 8 := by
    rw [shiftRight_eq_div]
    norm_num
  unfold hllAdd
  rw [if_neg hmode']
  by_cases hroom1 : sSize s + 1 < s.length >>> 3
  · have hsa : sparseAdd s hash =
        (sSetSize (wr s ((sSize s + 1) <<< 3) (leU64bytes hash))
          ((sSize s + 1) ||| 2 ^ 31), AddResult.ok) := by
      simp only [sparseAdd]
      rw [if_pos hroom1]
    rw [hsa]
    right
    apply append_state_inv L hL27 processed s hash hhash hlen hw hmem
    rw [hdiv] at hroom1
    omega
  · have hbnd : 8 + 8 * sSize s ≤ s.length := by omega
    have hb27 : s.length < 2 ^ 27 := by omega
    by_cases hdirty : sDirty s = false
    · have hsa : sparseAdd s hash = (s, AddResult.full) := by
        simp only [sparseAdd]
        rw [if_neg hroom1, if_pos hdirty]
      rw [hsa]
      left
      obtain ⟨ht0, htne, _⟩ := toDense_facts s (by omega)
      exact hllAdd_promoted_mode _ hash ht0 htne
    · by_cases hcap : sSize (sparseSort s) + 100 < s.length >>> 3
      · have hsa : sparseAdd s hash =
            (sSetSize (wr (sparseSort s)
                ((sSize (sparseSort s) + 1) <<< 3) (leU64bytes hash))
              ((sSize (sparseSort s) + 1) ||| 2 ^ 31), AddResult.ok) := by
          simp only [sparseAdd]
          rw [if_neg hroom1, if_neg (by simp [hdirty]), if_pos hcap]
        rw [hsa]
        right
        apply append_state_inv L hL27 processed (sparseSort s) hash hhash
          (by rw [sparseSort_length s hbnd]; exact hlen)
          (sparseSort_wf s hw)
          (fun y => (storedHashes_sparseSort_mem s hbnd hb27 y).trans (hmem y))
        rw [hdiv] at hcap
        omega
      · have hsa : sparseAdd s hash = (sparseSort s, AddResult.full) := by
          simp only [sparseAdd]
          rw [if_neg hroom1, if_neg (by simp [hdirty]), if_neg hcap]
        rw [hsa]
        left
        obtain ⟨ht0, htne, _⟩ := toDense_facts (sparseSort s)
          (by rw [sparseSort_length s hbnd]; omega)
        exact hllAdd_promoted_mode _ hash ht0 htne

/-- The facade `add` keeps a dense buffer dense. -/
theorem hllAdd_dense_sticky (h : Buf) (hash : Nat)
    (hd : byteAt h 0 &&& 64 ≠ 0) : byteAt (hllAdd h hash) 0 &&& 64 ≠ 0 := by
  have hne : h ≠ [] := dense_nonempty h hd
  unfold hllAdd
  rw [if_pos hd]
  by_cases hr : (denseAdd (h.drop 8) hash).2 = true
  · simp only [hr, if_true]
    rw [byteAt_set_zero _ _ (rd8_append_ne_nil h _ hne)]
    exact or128_keeps_mode _ (by rw [byteAt_head_append h _ hne]; exact hd)
  · simp only [Bool.not_eq_true] at hr
    simp only [hr, Bool.false_eq_true, if_false]
    rw [byteAt_head_append h _ hne]
    exact hd

theorem dense_fold : ∀ (t : List Nat) (h : Buf),
    byteAt h 0 &&& 64 ≠ 0 → byteAt (t.foldl hllAdd h) 0 &&& 64 ≠ 0
  | [], h, hd => hd
  | x :: t, h, hd => by
    rw [List.foldl_cons]
    exact dense_fold t (hllAdd h x) (hllAdd_dense_sticky h x hd)

theorem fold_inv (L : Nat) (hL27 : L < 2 ^ 27) (hL20 : 20 ≤ L) :
    ∀ (rest processed : List Nat) (s : Buf), (∀ x ∈ rest, x < 2 ^ 64) →
    SparseInv L processed s →
    byteAt (rest.foldl hllAdd s) 0 &&& 64 ≠ 0 ∨
      SparseInv L (processed ++ rest) (rest.foldl hllAdd s)
  | [], processed, s, _, hinv => Or.inr (by simpa using hinv)
  | x :: t, processed, s, hwf, hinv => by
    rw [List.foldl_cons]
    rcases hllAdd_step L hL27 hL20 processed s x (hwf x (by simp)) hinv with
      hd | hinv'
    · exact Or.inl (dense_fold t (hllAdd s x) hd)
    · rcases fold_inv L hL27 hL20 t (processed ++ [x]) (hllAdd s x)
        (fun y hy => hwf y (by simp [hy])) hinv' with hd | hinv2
      · exact Or.inl hd
      · right
        rw [List.append_assoc] at hinv2
        simpa using hinv2

theorem estimate_of_inv (L : Nat) (hL27 : L < 2 ^ 27)
    (processed : List Nat) (s : Buf) (dEst : Buf → Nat)
    (hinv : SparseInv L processed s) :
    (hllEstimateC dEst s).1 = processed.dedup.length := by
  obtain ⟨hlen, hw, hmode, hbound, hmem, hclean⟩ := hinv
  have hb : 8 + 8 * sSize s ≤ s.length := by omega
  have hb27 : s.length < 2 ^ 27 := by omega
  have hcard : processed.dedup.length = processed.toFinset.card :=
    (List.card_toFinset processed).symm
  unfold hllEstimateC
  rw [if_neg (by simp [hmode])]
  unfold sparseEstimate
  by_cases hd : sDirty s = true
  · simp only [hd, if_true]
    have hnd := storedHashes_sparseSort_nodup s hw hb hb27
    have hfin : (storedHashes (sparseSort s)).toFinset = processed.toFinset := by
      apply Finset.ext
      intro a
      rw [List.mem_toFinset, List.mem_toFinset,
        storedHashes_sparseSort_mem s hb hb27 a, hmem a]
    have hlen1 : sSize (sparseSort s) = (storedHashes (sparseSort s)).length :=
      (storedHashes_length _).symm
    rw [hlen1, hcard, ← hfin, List.toFinset_card_of_nodup hnd]
  · simp only [hd, Bool.false_eq_true, if_false]
    have hdf : sDirty s = false := by
      cases hx : sDirty s
      · rfl
      · exact absurd hx hd
    have hnd := hclean hdf
    have hfin : (storedHashes s).toFinset = processed.toFinset := by
      apply Finset.ext
      intro a
      rw [List.mem_toFinset, List.mem_toFinset, hmem a]
    have hlen1 : sSize s = (storedHashes s).length := (storedHashes_length _).symm
    rw [hlen1, hcard, ← hfin, List.toFinset_card_of_nodup hnd]

theorem sSize_zeros (L : Nat) : sSize (zeros L) = 0 := by
  unfold sSize beU32
  simp [byteAt_zeros]

theorem sparseInv_init (L : Nat) (h8 : 8 ≤ L) : SparseInv L [] (zeros L) := by
  refine ⟨zeros_length L, zeros_wf L, ?_, ?_, ?_, ?_⟩
  · rw [byteAt_zeros]
    decide
  · rw [sSize_zeros]
    omega
  · intro y
    unfold storedHashes keysOf
    rw [sSize_zeros]
    simp [chunksN]
  · intro _
    unfold storedHashes keysOf
    rw [sSize_zeros]
    simp [chunksN]

theorem validSize_bounds (L : Nat) (hL : validSize L) : 20 ≤ L ∧ L < 2 ^ 27 := by
  obtain ⟨p, hp4, hp25, rfl⟩ := hL
  unfold hllSizeByP
  rw [Nat.shiftLeft_eq, Nat.one_mul, shiftRight_eq_div]
  have h16 : 2 ^ 4 ≤ 2 ^ p := Nat.pow_le_pow_right (by omega) hp4
  have h25 : 2 ^ p ≤ 2 ^ 25 := Nat.pow_le_pow_right (by omega) hp25
  norm_num at h16 h25 ⊢
  omega

/-- C3: replaying any hash sequence through the facade `add` into a fresh
all-zero buffer of valid size, as long as the final buffer is still in
sparse mode, makes `estimate_cardinality` return exactly the number of
distinct hashes in the sequence. -/
theorem c3_sparse_estimate_exact (L : Nat) (hL : validSize L)
    (hs : List Nat) (hwf : ∀ x ∈ hs, x < 2 ^ 64) (dEst : Buf → Nat)
    (hsp : hllIsSparse (hs.foldl hllAdd (zeros L)) = true) :
    (hllEstimateC dEst (hs.foldl hllAdd (zeros L))).1 = hs.dedup.length := by
  obtain ⟨hL20, hL27⟩ := validSize_bounds L hL
  rcases fold_inv L hL27 hL20 hs [] (zeros L) hwf (sparseInv_init L (by omega))
    with hdense | hinv
  · exfalso
    unfold hllIsSparse at hsp
    simp only [decide_eq_true_eq] at hsp
    exact hdense hsp
  · simp only [List.nil_append] at hinv
    exact estimate_of_inv L hL27 hs _ dEst hinv

/-- Witness for C3: three adds with one duplicate into a fresh buffer of
size 56 (precision 6) stay sparse and estimate exactly 2. -/
theorem c3_sparse_estimate_exact_witness :
    (hllEstimateC (fun _ => 0)
      (([5, 7, 5] : List Nat).foldl hllAdd (zeros 56))).1 =
      ([5, 7, 5] : List Nat).dedup.length :=
  c3_sparse_estimate_exact 56 ⟨6, by omega, by omega, by decide⟩
    [5, 7, 5] (by decide) (fun _ => 0) (by decide)
